import Mathlib

/-!
Verification development for the Arroyo query-planning core.

This file shallowly embeds the planning subsystem of the repository:
the `window(start, end)` scalar function and the physical extension codec
(`src/arroyo-df/src/physical.rs`), the aggregate-splitting planner bridge and
the plan-to-graph visitor (`src/crates/arroyo-df/src/builder.rs`), and the
join rewriter (`src/crates/arroyo-planner/src/plan/join.rs`).

External library values (arrow data types, schemas, DataFusion error values)
are represented by small Lean structures carrying exactly the data the
embedded code inspects.  Machine-level aspects that the code does not
observe (exact protobuf bytes, JSON text of schemas, Rust `Debug` output)
are represented by the structured values they serialize; the code treats
them as opaque round-trippable blobs.
-/

set_option maxHeartbeats 1000000

namespace ArroyoVerify

/-! ## Arrow data model (representative fragment)

Arrow `DataType` is represented by a set of primitive types that the embedded
code distinguishes, plus single-level struct types (the only struct shape the
embedded code constructs).  `Timestamp(Nanosecond, None)` is `prim .tsNanosecond`.
-/

inductive PrimDT where
  | tsNanosecond
  | tsMillisecond
  | int64
  | float64
  | utf8
  | boolean
deriving DecidableEq, Repr

/-- A field of a struct data type (single-level: primitive field types). -/
structure PField where
  name : String
  dt : PrimDT
  nullable : Bool
deriving DecidableEq, Repr

inductive DataTypeM where
  | prim (p : PrimDT)
  | structDT (fields : List PField)
deriving DecidableEq, Repr

/-- An arrow schema field: name, data type, nullability. -/
structure FieldM where
  name : String
  dt : DataTypeM
  nullable : Bool
deriving DecidableEq, Repr

/-- An arrow `Schema` (metadata is not inspected by the embedded code). -/
structure SchemaM where
  fields : List FieldM
deriving DecidableEq, Repr

/-- The `DataFusionError` variants constructed by the embedded code. -/
inductive DFError where
  | plan (msg : String)
  | internal (msg : String)
  | notImplemented (msg : String)
deriving DecidableEq, Repr

/-- The `Display` rendering of a `DataFusionError`, used where the source
formats an error into another error message. -/
def DFError.display : DFError → String
  | .plan m => "Error during planning: " ++ m
  | .internal m => "Internal error: " ++ m
  | .notImplemented m => "This feature is not implemented: " ++ m

/-! ## `window_function` (src/arroyo-df/src/physical.rs, lines 54-116)

`ColumnarValue` is either an arrow array (represented by its data type and
length) or a scalar (represented by its data type); the window function
inspects nothing else.  A runtime error is either a returned
`DataFusionError` or a Rust panic (arrow's `StructArray::new` asserts).
-/

inductive ColumnarValue where
  | array (dt : DataTypeM) (len : Nat)
  | scalar (dt : DataTypeM)
deriving DecidableEq, Repr

def ColumnarValue.dataType : ColumnarValue → DataTypeM
  | .array dt _ => dt
  | .scalar dt => dt

inductive RtError where
  | dfErr (e : DFError)
  | panicErr (msg : String)
deriving DecidableEq, Repr

/-- The `fields` vector built inside `window_function`:
`start` and `end`, both non-null `Timestamp(ns)`. -/
def windowFields : List PField :=
  [⟨"start", .tsNanosecond, false⟩, ⟨"end", .tsNanosecond, false⟩]

/-- Arrow `StructArray::new(fields, columns, None)`: validates column count,
column types against field types and equal lengths (panicking on failure),
and yields a struct array whose length is the common column length. -/
def structArrayNew (fields : List PField) (cols : List (DataTypeM × Nat)) :
    Except RtError (DataTypeM × Nat) :=
  if cols.length = fields.length then
    match cols with
    | [] => .ok (.structDT fields, 0)
    | c :: rest =>
      if (cols.zip fields).all (fun p => p.1.1 = DataTypeM.prim p.2.dt) then
        if rest.all (fun c' => c'.2 = c.2) then .ok (.structDT fields, c.2)
        else .error (.panicErr "all columns in a StructArray must have the same length")
      else .error (.panicErr "incorrect datatype for StructArray field")
  else .error (.panicErr "incorrect number of columns for StructArray fields")

/-- `ScalarValue::to_array_of_size(n)`: an array of the scalar's type with
`n` copies of the value. -/
def toArrayOfSize (dt : DataTypeM) (n : Nat) : DataTypeM × Nat := (dt, n)

/-- `window_function` from src/arroyo-df/src/physical.rs lines 54-116:
checks arity (exactly 2) and that both arguments are `Timestamp(ns)`, then
builds a struct column from the two inputs, broadcasting a scalar against an
array input with `to_array_of_size`. -/
def windowFunction (columns : List ColumnarValue) : Except RtError ColumnarValue :=
  match columns with
  | [c0, c1] =>
    if c0.dataType ≠ DataTypeM.prim .tsNanosecond then
      .error (.dfErr (.internal "window function expected first argument to be a timestamp"))
    else if c1.dataType ≠ DataTypeM.prim .tsNanosecond then
      .error (.dfErr (.internal "window function expected second argument to be a timestamp"))
    else
      match c0, c1 with
      | .array dt0 n, .array dt1 m => do
        let r ← structArrayNew windowFields [(dt0, n), (dt1, m)]
        .ok (.array r.1 r.2)
      | .array dt0 n, .scalar dt1 => do
        let e := toArrayOfSize dt1 n
        let r ← structArrayNew windowFields [(dt0, n), e]
        .ok (.array r.1 r.2)
      | .scalar dt0, .array dt1 m => do
        let s := toArrayOfSize dt0 m
        let r ← structArrayNew windowFields [s, (dt1, m)]
        .ok (.array r.1 r.2)
      | .scalar _, .scalar _ =>
        .ok (.scalar (.structDT windowFields))
  | other =>
    .error (.dfErr (.internal
      ("window function expected 2 argument, got " ++ toString other.length)))

/-- Whether a columnar value is an array. -/
def ColumnarValue.isArray : ColumnarValue → Bool
  | .array _ _ => true
  | .scalar _ => false

/-- Length compatibility of a pair of columnar inputs: when both are arrays
they have the same length (the invariant of a per-row scalar invocation). -/
def lenCompat : ColumnarValue → ColumnarValue → Bool
  | .array _ n, .array _ m => n = m
  | _, _ => true

/-- The result shape the specification promises for `window(start, end)`:
an array of the (common) array length when either input is an array,
otherwise a scalar; in every case a struct with fields `start` and `end`. -/
def windowExpected : ColumnarValue → ColumnarValue → ColumnarValue
  | .array _ n, _ => .array (.structDT windowFields) n
  | .scalar _, .array _ m => .array (.structDT windowFields) m
  | .scalar _, .scalar _ => .scalar (.structDT windowFields)

/-- C6: for two `Timestamp(ns)` inputs of compatible lengths, `window`
returns an array iff at least one input is an array, with the array input's
length (scalars are broadcast), and a scalar struct with fields `start` and
`end` when both inputs are scalars. -/
theorem c6_window_per_row_evaluation (c0 c1 : ColumnarValue)
    (h0 : c0.dataType = DataTypeM.prim .tsNanosecond)
    (h1 : c1.dataType = DataTypeM.prim .tsNanosecond)
    (hlen : lenCompat c0 c1 = true) :
    windowFunction [c0, c1] = .ok (windowExpected c0 c1) ∧
      (windowExpected c0 c1).isArray = (c0.isArray || c1.isArray) := by
  cases c0 with
  | array dt0 n =>
    cases c1 with
    | array dt1 m =>
      simp only [ColumnarValue.dataType] at h0 h1
      simp only [lenCompat, decide_eq_true_eq] at hlen
      subst h0 h1 hlen
      refine ⟨?_, rfl⟩
      simp [windowFunction, structArrayNew, windowFields, windowExpected, ColumnarValue.dataType]
      rfl
    | scalar dt1 =>
      simp only [ColumnarValue.dataType] at h0 h1
      subst h0 h1
      refine ⟨?_, rfl⟩
      simp [windowFunction, structArrayNew, windowFields, windowExpected, toArrayOfSize, ColumnarValue.dataType]
      rfl
  | scalar dt0 =>
    cases c1 with
    | array dt1 m =>
      simp only [ColumnarValue.dataType] at h0 h1
      subst h0 h1
      refine ⟨?_, rfl⟩
      simp [windowFunction, structArrayNew, windowFields, windowExpected, toArrayOfSize, ColumnarValue.dataType]
      rfl
    | scalar dt1 =>
      simp only [ColumnarValue.dataType] at h0 h1
      subst h0 h1
      exact ⟨rfl, rfl⟩

/-- Witness for C6 at a concrete mixed array/scalar input. -/
theorem c6_witness :
    windowFunction [ColumnarValue.array (.prim .tsNanosecond) 3,
        ColumnarValue.scalar (.prim .tsNanosecond)] =
      .ok (windowExpected (ColumnarValue.array (.prim .tsNanosecond) 3)
        (ColumnarValue.scalar (.prim .tsNanosecond))) ∧
      (windowExpected (ColumnarValue.array (.prim .tsNanosecond) 3)
        (ColumnarValue.scalar (.prim .tsNanosecond))).isArray =
        ((ColumnarValue.array (.prim .tsNanosecond) 3).isArray ||
          (ColumnarValue.scalar (.prim .tsNanosecond)).isArray) :=
  c6_window_per_row_evaluation _ _ (by decide) (by decide) (by decide)

/-- C7 counterexample: on a zero-argument invocation the window function
fails with a `DataFusionError::Internal` (the code has no distinct
type-mismatch error kind), refuting the claim that the failure is a
`TypeMismatch` error. -/
theorem c7_counterexample :
    windowFunction [] =
      .error (.dfErr (.internal "window function expected 2 argument, got 0")) := by
  rfl

/-- C7 (amended): wrong arity or a non-`Timestamp(ns)` argument makes the
window function fail, with a `DataFusionError::Internal` describing the
mismatch. -/
theorem c7_window_argument_checking (columns : List ColumnarValue)
    (h : columns.length ≠ 2 ∨
      (∃ c0 c1, columns = [c0, c1] ∧
        (c0.dataType ≠ DataTypeM.prim .tsNanosecond ∨
         c1.dataType ≠ DataTypeM.prim .tsNanosecond))) :
    ∃ msg, windowFunction columns = .error (.dfErr (.internal msg)) := by
  match columns, h with
  | [], _ => exact ⟨_, rfl⟩
  | [c], _ => exact ⟨_, rfl⟩
  | c0 :: c1 :: c2 :: rest, _ => exact ⟨_, rfl⟩
  | [c0, c1], h =>
    have hty : c0.dataType ≠ DataTypeM.prim .tsNanosecond ∨
        c1.dataType ≠ DataTypeM.prim .tsNanosecond := by
      rcases h with h | ⟨a0, a1, heq, hab⟩
      · simp at h
      · injection heq with h0 htl
        injection htl with h1 _
        subst h0
        subst h1
        exact hab
    by_cases hty0 : c0.dataType = DataTypeM.prim .tsNanosecond
    · have hty1 : c1.dataType ≠ DataTypeM.prim .tsNanosecond := by
        rcases hty with hty | hty
        · exact absurd hty0 hty
        · exact hty
      refine ⟨"window function expected second argument to be a timestamp", ?_⟩
      simp only [windowFunction]
      rw [if_neg (by simp [hty0]), if_pos hty1]
    · refine ⟨"window function expected first argument to be a timestamp", ?_⟩
      simp only [windowFunction]
      rw [if_pos hty0]

/-- Witness for C7 (amended) at a concrete ill-typed input. -/
theorem c7_witness :
    ∃ msg, windowFunction [ColumnarValue.scalar (.prim .int64),
        ColumnarValue.scalar (.prim .tsNanosecond)] =
      .error (.dfErr (.internal msg)) :=
  c7_window_argument_checking _ (Or.inr ⟨_, _, rfl, Or.inl (by decide)⟩)

/-! ## Extension codec (src/arroyo-df/src/physical.rs, lines 190-345)

`ExecPlan` represents the physical execution plans the codec can meet:
`ArroyoMemExec`, `UnnestExec`, the three record-batch readers the decoder
produces, and a stand-in for every other `ExecutionPlan`.  The protobuf
envelope `ArroyoExecNode` carries its `oneof` payload as an `Option`; the
`schema` string field (JSON) is represented by the schema value it
serializes, and prost's byte round-trip is the identity on the message.
-/

/-- A physical column reference (name and index), as in
`datafusion_physical_expr::expressions::Column`. -/
structure ColumnM where
  name : String
  index : Nat
deriving DecidableEq, Repr

inductive ExecPlan where
  | mem (tableName : String) (schema : SchemaM)
  | unnest (input : ExecPlan) (column : ColumnM) (schema : SchemaM)
  | rwLockReader (schema : SchemaM) (slot : Nat)
  | unboundedReader (schema : SchemaM) (slot : Nat)
  | vecReader (schema : SchemaM) (slot : Nat)
  | otherExec (payload : Nat) (schema : SchemaM)
deriving DecidableEq, Repr

/-- The `oneof node` arms of the `ArroyoExecNode` protobuf message. -/
inductive ExecNodeProto where
  | memNode (tableName : String) (schema : SchemaM)
  | unnestNode (schema : SchemaM)
deriving DecidableEq, Repr

/-- The `ArroyoExecNode` protobuf envelope (`node` is an optional `oneof`). -/
structure ArroyoExecNodeM where
  node : Option ExecNodeProto
deriving DecidableEq, Repr

/-- `DecodingContext` (slots carry opaque identifiers for the lock cells). -/
inductive DecodingContextM where
  | noContext
  | planning
  | singleLockedBatch (slot : Nat)
  | unboundedBatchStream (slot : Nat)
  | lockedBatchVec (slot : Nat)
  | lockedJoinPair (left right : Nat)
deriving DecidableEq, Repr

/-- Modelled from the spec: `crate::rewriters::UNNESTED_COL` (the rewriters
module is not under src/); the reserved name of the column produced by
unnest rewriting. -/
def UNNESTED_COL : String := "__unnested"

/-- Arrow `Schema::index_of`: the first index of a field with the given
name, if any. -/
def SchemaM.indexOf (s : SchemaM) (name : String) : Option Nat :=
  s.fields.findIdx? (fun f => f.name = name)

/-- `ArroyoPhysicalExtensionCodec::try_decode`
(src/arroyo-df/src/physical.rs, lines 216-305): decode the protobuf
envelope, then materialize a `MemExec` according to the decoding context or
rebuild an `UnnestExec` over the first input. -/
def tryDecode (buf : ArroyoExecNodeM) (inputs : List ExecPlan)
    (context : DecodingContextM) : Except DFError ExecPlan :=
  match buf.node with
  | none => .error (.internal "exec node is empty")
  | some (.memNode tableName schema) =>
    match context with
    | .singleLockedBatch slot => .ok (.rwLockReader schema slot)
    | .unboundedBatchStream slot => .ok (.unboundedReader schema slot)
    | .lockedBatchVec slot => .ok (.vecReader schema slot)
    | .planning => .ok (.mem tableName schema)
    | .noContext => .error (.internal "Need an internal context to decode")
    | .lockedJoinPair l r =>
      if tableName = "left" then .ok (.rwLockReader schema l)
      else if tableName = "right" then .ok (.rwLockReader schema r)
      else .error (.internal ("unknown table name " ++ tableName))
  | some (.unnestNode schema) =>
    match schema.indexOf UNNESTED_COL with
    | none =>
      .error (.internal ("unnest node schema does not contain " ++ UNNESTED_COL ++ " col"))
    | some idx =>
      match inputs with
      | [] => .error (.internal "no input for unnest node")
      | i :: _ => .ok (.unnest i ⟨UNNESTED_COL, idx⟩ schema)

/-- The `proto` value computed by `try_encode` before writing: a message for
`ArroyoMemExec` and `UnnestExec` nodes, `none` for everything else. -/
def tryEncodeProto : ExecPlan → Option ExecNodeProto
  | .mem n s => some (.memNode n s)
  | .unnest _ _ s => some (.unnestNode s)
  | _ => none

/-- `ArroyoPhysicalExtensionCodec::try_encode`
(src/arroyo-df/src/physical.rs, lines 307-344): on success the message is
appended to the output buffer; otherwise an `Internal` error is returned and
the buffer is left untouched (the Rust message interpolates the node's
`Debug` output). -/
def tryEncode (node : ExecPlan) (buf : List ExecNodeProto) :
    Except DFError (List ExecNodeProto) :=
  match tryEncodeProto node with
  | some m => .ok (buf ++ [m])
  | none => .error (.internal "cannot serialize node")

/-- A serialized physical-plan tree: each node a protobuf extension envelope
with its serialized inputs. -/
inductive EncTree where
  | extNode (msg : ArroyoExecNodeM) (inputs : List EncTree)

/-- The tree-level serializer (datafusion-proto `try_from_physical_plan`,
restricted to plans whose nodes are all streaming extensions): every node is
encoded through `try_encode` into an extension envelope whose inputs are the
encoded children. -/
def treeEncode (p : ExecPlan) : Except DFError EncTree :=
  match p with
  | .unnest input c s =>
    match tryEncode (.unnest input c s) [] with
    | .error e => .error e
    | .ok msgs =>
      match treeEncode input with
      | .error e => .error e
      | .ok k => .ok (.extNode ⟨msgs.head?⟩ [k])
  | q =>
    match tryEncode q [] with
    | .error e => .error e
    | .ok msgs => .ok (.extNode ⟨msgs.head?⟩ [])

mutual

/-- The tree-level deserializer (datafusion-proto `try_into_physical_plan`
on extension nodes): decode the inputs, then hand them with the envelope to
`try_decode`. -/
def treeDecode : EncTree → DecodingContextM → Except DFError ExecPlan
  | .extNode msg kids, context =>
    match treeDecodeList kids context with
    | .error e => .error e
    | .ok inputs => tryDecode msg inputs context

def treeDecodeList : List EncTree → DecodingContextM → Except DFError (List ExecPlan)
  | [], _ => .ok []
  | t :: rest, context =>
    match treeDecode t context with
    | .error e => .error e
    | .ok p =>
      match treeDecodeList rest context with
      | .error e => .error e
      | .ok ps => .ok (p :: ps)

end

/-- Plans containing only `MemExec`/`UnnestExec` placeholders, with every
unnest schema containing the unnested column (true of every `UnnestExec` the
planner builds). -/
def memUnnestWF : ExecPlan → Bool
  | .mem _ _ => true
  | .unnest input _ s => (s.indexOf UNNESTED_COL).isSome && memUnnestWF input
  | _ => false

/-- The structural equality of the round-trip claim: same table names, same
(JSON-serialized) schemas, same tree shape. -/
def structEq : ExecPlan → ExecPlan → Bool
  | .mem n s, .mem n2 s2 => n = n2 && s = s2
  | .unnest i _ s, .unnest i2 _ s2 => s = s2 && structEq i i2
  | _, _ => false

/-- C3: for a physical plan whose only nodes are `MemExec`/`UnnestExec`
placeholders, decoding the encoding with the `Planning` context succeeds and
yields a structurally equal plan (same table names, schemas and tree
shape). -/
theorem c3_codec_round_trip (p : ExecPlan) (h : memUnnestWF p = true) :
    ∃ enc, treeEncode p = .ok enc ∧
      ∃ q, treeDecode enc .planning = .ok q ∧ structEq p q = true := by
  induction p with
  | mem n s =>
    refine ⟨_, rfl, .mem n s, rfl, ?_⟩
    simp [structEq]
  | unnest input c s ih =>
    simp only [memUnnestWF, Bool.and_eq_true] at h
    obtain ⟨hidx, hwf⟩ := h
    obtain ⟨enc, henc, q, hdec, heq⟩ := ih hwf
    obtain ⟨idx, hidx⟩ : ∃ idx, s.indexOf UNNESTED_COL = some idx := by
      cases hx : s.indexOf UNNESTED_COL with
      | none => rw [hx] at hidx; simp at hidx
      | some i => exact ⟨i, rfl⟩
    refine ⟨.extNode ⟨some (.unnestNode s)⟩ [enc], ?_, ?_⟩
    · simp only [treeEncode, tryEncode, tryEncodeProto, henc]
      rfl
    · refine ⟨.unnest q ⟨UNNESTED_COL, idx⟩ s, ?_, ?_⟩
      · simp only [treeDecode, treeDecodeList, hdec, tryDecode, hidx]
      · simp [structEq, heq]
  | rwLockReader s slot => simp [memUnnestWF] at h
  | unboundedReader s slot => simp [memUnnestWF] at h
  | vecReader s slot => simp [memUnnestWF] at h
  | otherExec payload s => simp [memUnnestWF] at h

/-- Witness for C3: a concrete unnest-over-mem plan round-trips. -/
theorem c3_witness :
    ∃ enc,
      treeEncode (.unnest (.mem "t" ⟨[⟨"a", .prim .int64, true⟩]⟩) ⟨UNNESTED_COL, 0⟩
          ⟨[⟨UNNESTED_COL, .prim .int64, true⟩]⟩) = .ok enc ∧
      ∃ q, treeDecode enc .planning = .ok q ∧
        structEq (.unnest (.mem "t" ⟨[⟨"a", .prim .int64, true⟩]⟩) ⟨UNNESTED_COL, 0⟩
          ⟨[⟨UNNESTED_COL, .prim .int64, true⟩]⟩) q = true :=
  c3_codec_round_trip _ (by decide)

/-- C10: `try_encode` succeeds exactly on `ArroyoMemExec` and `UnnestExec`
nodes, appending exactly one message to the buffer; on every other node it
returns an `Internal` error and produces no output. -/
theorem c10_encode_is_partial (p : ExecPlan) (buf : List ExecNodeProto) :
    tryEncode p buf =
      (match p with
       | .mem n s => .ok (buf ++ [.memNode n s])
       | .unnest _ _ s => .ok (buf ++ [.unnestNode s])
       | _ => .error (.internal "cannot serialize node")) := by
  cases p <;> rfl

/-! ## Aggregate splitting (src/crates/arroyo-df/src/builder.rs, lines 107-171)

`split_physical_plan` first plans the logical aggregate with DataFusion
(`sync_plan`) and converts it to a `datafusion_proto` `PhysicalPlanNode`;
both steps are external library calls, so the embedding takes the resulting
proto tree as its input.  A proto plan node holds an optional
`PhysicalPlanType`; the aggregate arm keeps its mode, its boxed input, the
output schema its decoded execution plan reports, and the remaining proto
fields as an opaque payload.  The `Extension` arm produced by encoding an
`ArroyoMemExec` with the `Planning` codec is `memExec`.
-/

/-- `datafusion_proto::protobuf::AggregateMode`. -/
inductive AggregateModeM where
  | partialAgg
  | finalAgg
  | finalPartitioned
  | singleAgg
  | singlePartitioned
deriving DecidableEq, Repr

inductive PPlanType where
  | aggregate (mode : AggregateModeM) (input : Option (Option PPlanType))
      (outSchema : SchemaM) (payload : Nat)
  | memExec (tableName : String) (schema : SchemaM)
  | otherPlan (outSchema : SchemaM) (payload : Nat)

/-- A `PhysicalPlanNode`: a record holding an optional `PhysicalPlanType`. -/
abbrev PPlanNode := Option PPlanType

/-- Modelled from the spec: `arroyo_rpc::df::ArroyoSchema` (not under src/),
a streaming schema over an arrow schema with the event-time field index and
optional key indices; `new_keyed` builds one with key indices supplied. -/
structure ArroyoSchemaM where
  schema : SchemaM
  timestampIndex : Nat
  keyIndices : Option (List Nat)
deriving DecidableEq, Repr

def ArroyoSchemaM.newKeyed (schema : SchemaM) (timestampIndex : Nat)
    (keyIndices : List Nat) : ArroyoSchemaM :=
  ⟨schema, timestampIndex, some keyIndices⟩

/-- Modelled from the spec: `add_timestamp_field_arrow`
(crate::schemas, not under src/) appends a non-null `_timestamp`
`Timestamp(ns)` field to the schema. -/
def addTimestampFieldArrow (s : SchemaM) : SchemaM :=
  ⟨s.fields ++ [⟨"_timestamp", .prim .tsNanosecond, false⟩]⟩

/-- The output schema reported by `try_into_physical_plan(...).schema()`
under the `Planning` codec (a `MemExec` extension decodes to an
`ArroyoMemExec` with the same schema). -/
def planOutputSchema : PPlanNode → Except DFError SchemaM
  | none => .error (.internal "physical plan node has no plan type")
  | some (.aggregate _ _ outSchema _) => .ok outSchema
  | some (.memExec _ schema) => .ok schema
  | some (.otherPlan outSchema _) => .ok outSchema

/-- `SplitPlanOutput` (src/crates/arroyo-df/src/builder.rs, lines 334-338). -/
structure SplitPlanOutputM where
  partialAggregationPlan : PPlanNode
  partialSchema : ArroyoSchemaM
  finishPlan : PPlanNode

/-- `Planner::split_physical_plan` (src/crates/arroyo-df/src/builder.rs,
lines 107-171), from the point where the planned physical plan has been
converted to a proto node: the root must be an `Aggregate` in `Final` mode;
its input becomes the partial plan; the partial plan's output schema (read
off the deserialized child) becomes the `MemExec("partial")` placeholder
schema of the finish plan and, with the key indices and an appended
`_timestamp`, the returned partial schema. -/
def splitPhysicalPlan (keyIndices : List Nat) (physicalPlanNode : PPlanNode) :
    Except DFError SplitPlanOutputM :=
  match physicalPlanNode with
  | none => .error (.plan "missing physical plan type")
  | some (.aggregate mode input outSchema payload) =>
    match mode with
    | .finalAgg =>
      match input with
      | none => .error (.plan "missing input")
      | some partialAggregationPlan =>
        match planOutputSchema partialAggregationPlan with
        | .error e => .error e
        | .ok partialOut =>
          let finalInputTableProvider := PPlanType.memExec "partial" partialOut
          let finishPlan : PPlanNode :=
            some (.aggregate .finalAgg (some (some finalInputTableProvider)) outSchema payload)
          .ok ⟨partialAggregationPlan,
            ArroyoSchemaM.newKeyed (addTimestampFieldArrow partialOut)
              partialOut.fields.length keyIndices,
            finishPlan⟩
    | _ => .error (.plan "unexpected physical plan type")
  | some (.memExec _ _) => .error (.plan "unexpected physical plan type")
  | some (.otherPlan _ _) => .error (.plan "unexpected physical plan type")

/-- C2: splitting a Final-mode aggregate over a partial child returns the
child unchanged as the partial plan, a partial schema that is the child's
output schema with the supplied key indices and one appended `_timestamp`
field (at index `ps.fields.length`), and a finish plan whose sole leaf is a
`MemExec` named "partial" carrying the child's output schema without the
appended `_timestamp`. -/
theorem c2_split_aggregate_schemas (keyIndices : List Nat)
    (partialPlan : PPlanNode) (outSchema : SchemaM) (payload : Nat)
    (ps : SchemaM) (hps : planOutputSchema partialPlan = .ok ps) :
    splitPhysicalPlan keyIndices
        (some (.aggregate .finalAgg (some partialPlan) outSchema payload)) =
      .ok ⟨partialPlan,
        ⟨addTimestampFieldArrow ps, ps.fields.length, some keyIndices⟩,
        some (.aggregate .finalAgg (some (some (.memExec "partial" ps)))
          outSchema payload)⟩ := by
  simp only [splitPhysicalPlan, hps]
  rfl

/-- Witness for C2 at a concrete two-phase aggregate proto tree. -/
theorem c2_witness :
    splitPhysicalPlan [0]
        (some (.aggregate .finalAgg
          (some (some (.aggregate .partialAgg none
            ⟨[⟨"k", .prim .int64, false⟩, ⟨"cnt", .prim .int64, true⟩]⟩ 0)))
          ⟨[⟨"k", .prim .int64, false⟩, ⟨"count", .prim .int64, true⟩]⟩ 1)) =
      .ok ⟨some (.aggregate .partialAgg none
            ⟨[⟨"k", .prim .int64, false⟩, ⟨"cnt", .prim .int64, true⟩]⟩ 0),
        ⟨addTimestampFieldArrow ⟨[⟨"k", .prim .int64, false⟩, ⟨"cnt", .prim .int64, true⟩]⟩,
          (SchemaM.mk [⟨"k", .prim .int64, false⟩, ⟨"cnt", .prim .int64, true⟩]).fields.length,
          some [0]⟩,
        some (.aggregate .finalAgg
          (some (some (.memExec "partial"
            ⟨[⟨"k", .prim .int64, false⟩, ⟨"cnt", .prim .int64, true⟩]⟩)))
          ⟨[⟨"k", .prim .int64, false⟩, ⟨"count", .prim .int64, true⟩]⟩ 1)⟩ :=
  c2_split_aggregate_schemas [0] _ _ 1 _ rfl

/-- Whether a proto plan type is an `Aggregate` in `Final` mode. -/
def isFinalAggregate : PPlanType → Bool
  | .aggregate .finalAgg _ _ _ => true
  | _ => false

/-- C8: splitting a physical plan whose root is not a Final-mode aggregate
fails with `Plan("unexpected physical plan type")` and produces no output. -/
theorem c8_split_shape_precondition (keyIndices : List Nat) (t : PPlanType)
    (h : isFinalAggregate t = false) :
    splitPhysicalPlan keyIndices (some t) =
      .error (.plan "unexpected physical plan type") := by
  cases t with
  | aggregate mode input outSchema payload =>
    cases mode with
    | finalAgg => simp [isFinalAggregate] at h
    | partialAgg => rfl
    | finalPartitioned => rfl
    | singleAgg => rfl
    | singlePartitioned => rfl
  | memExec n s => rfl
  | otherPlan s p => rfl

/-- Witness for C8 at a concrete single-phase aggregate. -/
theorem c8_witness :
    splitPhysicalPlan [] (some (.aggregate .singleAgg none ⟨[]⟩ 0)) =
      .error (.plan "unexpected physical plan type") :=
  c8_split_shape_precondition [] _ rfl

/-! ## Join rewriter (src/crates/arroyo-planner/src/plan/join.rs)

The rewriter works on DataFusion logical plans.  `JPlan` keeps the node
kinds the rewriter touches: scans (annotated with the window type that
`WindowDetectingVisitor` would report for the subplan), projections, joins,
and the two streaming extensions it produces.  `JExpr` keeps the expression
forms the rewriter builds or inspects; expression typing
(`data_type_and_nullable`) is modelled for exactly those forms.
`exceptMapM` is the `collect::<Result<Vec<_>>>` idiom.
-/

def exceptMapM (f : α → Except DFError β) : List α → Except DFError (List β)
  | [] => .ok []
  | a :: rest =>
    match f a with
    | .error e => .error e
    | .ok b =>
      match exceptMapM f rest with
      | .error e => .error e
      | .ok bs => .ok (b :: bs)

inductive WindowTypeM where
  | tumble (width : Nat)
  | hop (width slide : Nat)
  | session (gap : Nat)
  | instant
deriving DecidableEq, Repr

/-- A `DFSchema` field: optional qualifier, name, type, nullability. -/
structure DFFieldM where
  qualifier : Option String
  name : String
  dt : DataTypeM
  nullable : Bool
deriving DecidableEq, Repr

structure DFSchemaM where
  fields : List DFFieldM
deriving DecidableEq, Repr

inductive JOp where
  | eqOp
  | andOp
  | gtEq
deriving DecidableEq, Repr

inductive JExpr where
  | column (relation : Option String) (name : String)
  | aliasQ (e : JExpr) (relation : Option String) (name : String)
  | litBool (b : Bool)
  | binary (op : JOp) (left right : JExpr)
  | caseExpr (scrut : Option JExpr) (whenThen : List (JExpr × JExpr))
      (elseExpr : Option JExpr)
  | coalesce (args : List JExpr)
  | getField (e : JExpr) (field : String)
  | opaqueExpr (tag : Nat) (dt : DataTypeM) (nullable : Bool)

inductive JoinTypeM where
  | inner | leftJoin | rightJoin | full | leftSemi | rightSemi | leftAnti | rightAnti
deriving DecidableEq, Repr

inductive JoinConstraintM where
  | onConstraint
  | usingConstraint
deriving DecidableEq, Repr

inductive JPlan where
  | scan (table : String) (schema : DFSchemaM) (window : Option WindowTypeM)
  | projection (exprs : List JExpr) (input : JPlan) (schema : DFSchemaM)
  | join (left right : JPlan) (onCols : List (JExpr × JExpr)) (filter : Option JExpr)
      (joinType : JoinTypeM) (joinConstraint : JoinConstraintM) (schema : DFSchemaM)
      (nullEqualsNull : Bool)
  | keyCalcExt (input : JPlan) (keys : List Nat) (name : Option String)
  | joinExt (rewrittenJoin : JPlan) (isInstant : Bool)

/-- `LogicalPlan::schema()` for the modelled node kinds
(`KeyCalculationExtension` and `JoinExtension` report their input's schema). -/
def JPlan.outSchema : JPlan → DFSchemaM
  | .scan _ s _ => s
  | .projection _ _ s => s
  | .join _ _ _ _ _ _ s _ => s
  | .keyCalcExt i _ _ => i.outSchema
  | .joinExt r _ => r.outSchema

/-- `DFSchema` column resolution: a qualified reference matches qualifier
and name, an unqualified one matches by name (first match). -/
def resolveColumn (schema : DFSchemaM) (relation : Option String) (name : String) :
    Except DFError DFFieldM :=
  match relation with
  | some r =>
    match schema.fields.find? (fun f => f.qualifier = some r && f.name = name) with
    | some f => .ok f
    | none => .error (.plan ("No field named " ++ r ++ "." ++ name))
  | none =>
    match schema.fields.find? (fun f => f.name = name) with
    | some f => .ok f
    | none => .error (.plan ("No field named " ++ name))

/-- `Expr::data_type_and_nullable` for the modelled expression forms. -/
def dataTypeAndNullable (schema : DFSchemaM) : JExpr → Except DFError (DataTypeM × Bool)
  | .column r n => do
    let f ← resolveColumn schema r n
    .ok (f.dt, f.nullable)
  | .aliasQ e _ _ => dataTypeAndNullable schema e
  | .litBool _ => .ok (.prim .boolean, false)
  | .binary _ _ _ => .ok (.prim .boolean, true)
  | .caseExpr _ _ _ => .ok (.prim .boolean, true)
  | .coalesce _ => .ok (.prim .boolean, true)
  | .getField e fieldName => do
    let t ← dataTypeAndNullable schema e
    match t.1 with
    | .structDT fields =>
      match fields.find? (fun pf => pf.name = fieldName) with
      | some pf => .ok (.prim pf.dt, pf.nullable)
      | none => .error (.plan ("Field " ++ fieldName ++ " not found in struct"))
    | _ => .error (.plan "get_field requires a struct argument")
  | .opaqueExpr _ dt nl => .ok (dt, nl)

/-- Whether a struct-field type is itself nested (`DataType::is_nested`);
the flat primitive fragment has no nested field types. -/
def primIsNested : PrimDT → Bool := fun _ => false

/-- `StructEqRewriter::f_up` (src/crates/arroyo-planner/src/plan/join.rs,
lines 197-240): an equality whose sides are single-level structs of the same
type becomes the conjunction of field-wise `get_field` equalities. -/
def structEqFUp (schema : DFSchemaM) (node : JExpr) : Except DFError JExpr :=
  match node with
  | .binary .eqOp left right =>
    (do
      let lt ← dataTypeAndNullable schema left
      let rt ← dataTypeAndNullable schema right
      match lt.1 with
      | .structDT fields =>
        if fields.any (fun f => primIsNested f.dt) then
          .error (.plan
            "Joins on struct fields are only supported for structs with a single layer of nesting")
        else if lt.1 ≠ rt.1 then
          .error (.plan
            "Joins on structs must have the same types on both sides of the equality")
        else
          match fields with
          | [] => .error (.plan
              "Struct types used in join comparison must have at least one field")
          | f0 :: rest =>
            .ok (rest.foldl
              (fun acc f => JExpr.binary .andOp acc
                (JExpr.binary .eqOp (.getField left f.name) (.getField right f.name)))
              (JExpr.binary .eqOp (.getField left f0.name) (.getField right f0.name)))
      | _ => .ok node)
  | _ => .ok node

mutual

/-- `Expr::rewrite` with `StructEqRewriter`: bottom-up traversal applying
`structEqFUp` at every node. -/
def rewriteStructEq (schema : DFSchemaM) : JExpr → Except DFError JExpr
  | .column r n => structEqFUp schema (.column r n)
  | .aliasQ e r n =>
    match rewriteStructEq schema e with
    | .error er => .error er
    | .ok e2 => structEqFUp schema (.aliasQ e2 r n)
  | .litBool b => structEqFUp schema (.litBool b)
  | .binary op l r =>
    match rewriteStructEq schema l with
    | .error er => .error er
    | .ok l2 =>
      match rewriteStructEq schema r with
      | .error er => .error er
      | .ok r2 => structEqFUp schema (.binary op l2 r2)
  | .caseExpr scrut whenThen elseExpr =>
    match rewriteStructEqOpt schema scrut with
    | .error er => .error er
    | .ok s2 =>
      match rewriteStructEqPairs schema whenThen with
      | .error er => .error er
      | .ok wt2 =>
        match rewriteStructEqOpt schema elseExpr with
        | .error er => .error er
        | .ok e2 => structEqFUp schema (.caseExpr s2 wt2 e2)
  | .coalesce args =>
    match rewriteStructEqList schema args with
    | .error er => .error er
    | .ok a2 => structEqFUp schema (.coalesce a2)
  | .getField e fieldName =>
    match rewriteStructEq schema e with
    | .error er => .error er
    | .ok e2 => structEqFUp schema (.getField e2 fieldName)
  | .opaqueExpr t d n => structEqFUp schema (.opaqueExpr t d n)

def rewriteStructEqOpt (schema : DFSchemaM) : Option JExpr → Except DFError (Option JExpr)
  | none => .ok none
  | some e =>
    match rewriteStructEq schema e with
    | .error er => .error er
    | .ok e2 => .ok (some e2)

def rewriteStructEqList (schema : DFSchemaM) : List JExpr → Except DFError (List JExpr)
  | [] => .ok []
  | e :: rest =>
    match rewriteStructEq schema e with
    | .error er => .error er
    | .ok e2 =>
      match rewriteStructEqList schema rest with
      | .error er => .error er
      | .ok es => .ok (e2 :: es)

def rewriteStructEqPairs (schema : DFSchemaM) :
    List (JExpr × JExpr) → Except DFError (List (JExpr × JExpr))
  | [] => .ok []
  | (a, b) :: rest =>
    match rewriteStructEq schema a with
    | .error er => .error er
    | .ok a2 =>
      match rewriteStructEq schema b with
      | .error er => .error er
      | .ok b2 =>
        match rewriteStructEqPairs schema rest with
        | .error er => .error er
        | .ok ps => .ok ((a2, b2) :: ps)

end

/-- Modelled from the spec: `WindowDetectingVisitor::get_window`
(crate::plan, not under src/) walks a subplan and reports the window type it
carries, if any; scans carry their annotation, projections pass it through. -/
def getWindow : JPlan → Option WindowTypeM
  | .scan _ _ w => w
  | .projection _ i _ => getWindow i
  | .keyCalcExt i _ _ => getWindow i
  | .join _ _ _ _ _ _ _ _ => none
  | .joinExt _ _ => none

/-- `JoinRewriter::check_join_windowing`
(src/crates/arroyo-planner/src/plan/join.rs, lines 24-61). -/
def checkJoinWindowing (left right : JPlan) (joinType : JoinTypeM) :
    Except DFError Bool :=
  match getWindow left, getWindow right with
  | none, none =>
    if joinType = .inner then .ok false
    else .error (.notImplemented "can't handle non-inner joins without windows")
  | none, some _ =>
    .error (.notImplemented
      "can't handle mixed windowing between left (non-windowed) and right (windowed).")
  | some _, none =>
    .error (.notImplemented
      "can't handle mixed windowing between left (windowed) and right (non-windowed).")
  | some lw, some rw =>
    if lw ≠ rw then
      .error (.notImplemented "can't handle mixed windowing between left and right")
    else
      match lw with
      | .session _ => .error (.notImplemented "can't handle session windows in joins")
      | _ => .ok true

/-- `arroyo_rpc::IS_RETRACT_FIELD` (stated in the spec's reserved names). -/
def IS_RETRACT_FIELD : String := "_is_retract"

/-- `DFSchema::has_column_with_unqualified_name`. -/
def hasColumnWithUnqualifiedName (s : DFSchemaM) (name : String) : Bool :=
  s.fields.any (fun f => f.name = name)

/-- `JoinRewriter::check_updating`
(src/crates/arroyo-planner/src/plan/join.rs, lines 63-77): note the errors
are built with `plan_err!`, i.e. they are `DataFusionError::Plan`. -/
def checkUpdating (left right : JPlan) : Except DFError Unit :=
  if hasColumnWithUnqualifiedName left.outSchema IS_RETRACT_FIELD then
    .error (.plan "can't handle updating left side of join")
  else if hasColumnWithUnqualifiedName right.outSchema IS_RETRACT_FIELD then
    .error (.plan "can't handle updating right side of join")
  else .ok ()

/-- The output field a projection derives for an expression
(`Projection::try_new` / `exprlist_to_fields`): a column keeps its reference
and resolved type, a qualified alias gets the alias qualifier and name. -/
def exprToField (schema : DFSchemaM) : JExpr → Except DFError DFFieldM
  | .column r n => do
    let f ← resolveColumn schema r n
    .ok ⟨r, n, f.dt, f.nullable⟩
  | .aliasQ e r n => do
    let t ← dataTypeAndNullable schema e
    .ok ⟨r, n, t.1, t.2⟩
  | other => do
    let t ← dataTypeAndNullable schema other
    .ok ⟨none, "expr", t.1, t.2⟩

/-- `Projection::try_new`: derive the output schema from the expressions
against the input schema. -/
def projectionTryNew (exprs : List JExpr) (input : JPlan) : Except DFError JPlan :=
  match exceptMapM (exprToField input.outSchema) exprs with
  | .error e => .error e
  | .ok fields => .ok (.projection exprs input ⟨fields⟩)

/-- `JoinRewriter::create_join_key_plan`
(src/crates/arroyo-planner/src/plan/join.rs, lines 79-114): alias the k join
keys as `_arroyo._key_0 … _key_(k-1)`, append the input's columns, project,
and wrap in a `KeyCalculationExtension` recording key indices `[0..k)` and
the stable name.  (`KeyCalculationExtension::new_named_and_trimmed` is not
under src/; modelled from the spec as recording the plan, the key indices
and the name.) -/
def createJoinKeyPlan (input : JPlan) (joinExpressions : List JExpr)
    (name : String) : Except DFError JPlan :=
  let keyCount := joinExpressions.length
  let keyed := joinExpressions.enum.map
    (fun p => JExpr.aliasQ p.2 (some "_arroyo") ("_key_" ++ toString p.1))
  let allExprs := keyed ++
    input.outSchema.fields.map (fun f => JExpr.column f.qualifier f.name)
  match projectionTryNew allExprs input with
  | .error e => .error e
  | .ok proj => .ok (.keyCalcExt proj (List.range keyCount) (some name))

/-- `JoinRewriter::post_join_timestamp_projection`
(src/crates/arroyo-planner/src/plan/join.rs, lines 116-187). -/
def postJoinTimestampProjection (input : JPlan) : Except DFError JPlan :=
  let schema := input.outSchema
  match schema.fields.filter (fun f => f.name = "_timestamp") with
  | [leftField, rightField] =>
    let kept := schema.fields.filter (fun f => f.name ≠ "_timestamp")
    let projectionExpr := kept.map (fun f => JExpr.column f.qualifier f.name)
    let outputSchema : DFSchemaM := ⟨kept ++ [leftField]⟩
    let leftColumn := JExpr.column leftField.qualifier leftField.name
    let rightColumn := JExpr.column rightField.qualifier rightField.name
    let maxTimestamp := JExpr.caseExpr
      (some (.binary .gtEq leftColumn rightColumn))
      [(.litBool true, leftColumn), (.litBool false, rightColumn)]
      (some (.coalesce [leftColumn, rightColumn]))
    .ok (.projection
      (projectionExpr ++ [JExpr.aliasQ maxTimestamp leftField.qualifier leftField.name])
      input outputSchema)
  | _ => .error (.notImplemented "join must have two timestamp fields")

/-- `JoinRewriter::f_up` (src/crates/arroyo-planner/src/plan/join.rs,
lines 246-306); `Transformed` is a flag plus the plan. -/
def joinRewriterFUp (node : JPlan) : Except DFError (Bool × JPlan) :=
  match node with
  | .join left right onCols filter joinType joinConstraint schema nullEqualsNull =>
    match checkJoinWindowing left right joinType with
    | .error e => .error e
    | .ok isInstant =>
      match joinConstraint, nullEqualsNull with
      | .onConstraint, false =>
        match checkUpdating left right with
        | .error e => .error e
        | .ok _ =>
          if onCols.isEmpty && !isInstant then
            .error (.notImplemented "Updating joins must include an equijoin condition")
          else
            let leftExpressions := onCols.map Prod.fst
            let rightExpressions := onCols.map Prod.snd
            match rewriteStructEqOpt schema filter with
            | .error e => .error e
            | .ok filter2 =>
              match createJoinKeyPlan left leftExpressions "left" with
              | .error e => .error e
              | .ok leftInput =>
                match createJoinKeyPlan right rightExpressions "right" with
                | .error e => .error e
                | .ok rightInput =>
                  let rewrittenJoin := JPlan.join leftInput rightInput onCols filter2
                    joinType .onConstraint schema false
                  match postJoinTimestampProjection rewrittenJoin with
                  | .error e => .error e
                  | .ok finalLogicalPlan =>
                    .ok (true, .joinExt finalLogicalPlan isInstant)
      | _, _ => .error (.notImplemented "can't handle join constraint other than ON")
  | other => .ok (false, other)

/-- The output field the specification promises at position `idx` for a join
key expression of the given type and nullability:
`_arroyo._key_<idx>`. -/
def specKeyField (idx : Nat) (tn : DataTypeM × Bool) : DFFieldM :=
  ⟨some "_arroyo", "_key_" ++ toString idx, tn.1, tn.2⟩

/-- Schemas whose every field resolves back to itself (no ambiguous
references). -/
def wfResolvable (s : DFSchemaM) : Bool :=
  s.fields.all (fun f =>
    match resolveColumn s f.qualifier f.name with
    | .ok g => g = f
    | .error _ => false)

theorem wfResolvable_spec (s : DFSchemaM) (h : wfResolvable s = true) :
    ∀ f ∈ s.fields, resolveColumn s f.qualifier f.name = .ok f := by
  intro f hf
  have hx := (List.all_eq_true.mp h) f hf
  cases hres : resolveColumn s f.qualifier f.name with
  | error e => rw [hres] at hx; simp at hx
  | ok g =>
    rw [hres] at hx
    simp only [decide_eq_true_eq] at hx
    rw [hx]

theorem exceptMapM_append (f : α → Except DFError β) (l1 l2 : List α)
    (b1 b2 : List β) (h1 : exceptMapM f l1 = .ok b1)
    (h2 : exceptMapM f l2 = .ok b2) :
    exceptMapM f (l1 ++ l2) = .ok (b1 ++ b2) := by
  induction l1 generalizing b1 with
  | nil =>
    simp only [exceptMapM] at h1
    cases h1
    simpa using h2
  | cons a rest ih =>
    simp only [exceptMapM] at h1 ⊢
    cases ha : f a with
    | error e => rw [ha] at h1; cases h1
    | ok b =>
      rw [ha] at h1
      cases hr : exceptMapM f rest with
      | error e => rw [hr] at h1; cases h1
      | ok bs =>
        rw [hr] at h1
        cases h1
        simp only [List.cons_append, List.append_eq]
        rw [ih bs hr]

theorem exceptMapM_keyed (s : DFSchemaM) (es : List JExpr) (k : Nat)
    (tys : List (DataTypeM × Bool))
    (h : exceptMapM (dataTypeAndNullable s) es = .ok tys) :
    exceptMapM (exprToField s)
      ((es.enumFrom k).map
        (fun p => JExpr.aliasQ p.2 (some "_arroyo") ("_key_" ++ toString p.1))) =
      .ok ((tys.enumFrom k).map (fun p => specKeyField p.1 p.2)) := by
  induction es generalizing k tys with
  | nil =>
    simp only [exceptMapM] at h
    cases h
    rfl
  | cons e rest ih =>
    simp only [exceptMapM] at h
    cases he : dataTypeAndNullable s e with
    | error er => rw [he] at h; cases h
    | ok t =>
      rw [he] at h
      cases hr : exceptMapM (dataTypeAndNullable s) rest with
      | error er => rw [hr] at h; cases h
      | ok ts =>
        rw [hr] at h
        cases h
        simp only [List.enumFrom, List.map_cons, exceptMapM, exprToField, he,
          bind, Except.bind]
        rw [ih (k + 1) ts hr]
        rfl

theorem exceptMapM_selfColumns (s : DFSchemaM) (l : List DFFieldM)
    (h : ∀ f ∈ l, resolveColumn s f.qualifier f.name = .ok f) :
    exceptMapM (exprToField s)
      (l.map (fun f => JExpr.column f.qualifier f.name)) = .ok l := by
  induction l with
  | nil => rfl
  | cons f rest ih =>
    have hf := h f (List.mem_cons_self _ _)
    have hr := ih (fun g hg => h g (List.mem_cons_of_mem _ hg))
    simp only [List.map_cons, exceptMapM, exprToField, hf, bind, Except.bind]
    rw [hr]

/-- C4: `create_join_key_plan` wraps the side in a projection whose
expressions are the k key expressions aliased `_arroyo._key_0 … _key_(k-1)`
followed by the side's columns, whose output schema is the key fields
followed by the side's original fields, inside a `KeyCalculationExtension`
recording key indices `[0..k)` and the given stable name. -/
theorem c4_join_key_projection (input : JPlan) (joinExpressions : List JExpr)
    (name : String) (tys : List (DataTypeM × Bool))
    (hty : exceptMapM (dataTypeAndNullable input.outSchema) joinExpressions = .ok tys)
    (hwf : wfResolvable input.outSchema = true) :
    createJoinKeyPlan input joinExpressions name =
      .ok (.keyCalcExt
        (.projection
          (joinExpressions.enum.map
            (fun p => JExpr.aliasQ p.2 (some "_arroyo") ("_key_" ++ toString p.1)) ++
            input.outSchema.fields.map (fun f => JExpr.column f.qualifier f.name))
          input
          ⟨tys.enum.map (fun p => specKeyField p.1 p.2) ++ input.outSchema.fields⟩)
        (List.range joinExpressions.length) (some name)) := by
  have hkeys := exceptMapM_keyed input.outSchema joinExpressions 0 tys hty
  have hcols := exceptMapM_selfColumns input.outSchema input.outSchema.fields
    (wfResolvable_spec _ hwf)
  have happ := exceptMapM_append (exprToField input.outSchema) _ _ _ _ hkeys hcols
  simp only [createJoinKeyPlan, projectionTryNew, List.enum]
  rw [happ]

/-- Witness for C4 at a concrete one-key join side. -/
theorem c4_witness :
    createJoinKeyPlan
        (.scan "t" ⟨[⟨some "t", "a", .prim .int64, true⟩,
          ⟨some "t", "_timestamp", .prim .tsNanosecond, false⟩]⟩ none)
        [.column (some "t") "a"] "left" =
      .ok (.keyCalcExt
        (.projection
          (([JExpr.column (some "t") "a"].enum.map
            (fun p => JExpr.aliasQ p.2 (some "_arroyo") ("_key_" ++ toString p.1)) ++
            (DFSchemaM.mk [⟨some "t", "a", .prim .int64, true⟩,
              ⟨some "t", "_timestamp", .prim .tsNanosecond, false⟩]).fields.map
              (fun f => JExpr.column f.qualifier f.name)))
          (.scan "t" ⟨[⟨some "t", "a", .prim .int64, true⟩,
            ⟨some "t", "_timestamp", .prim .tsNanosecond, false⟩]⟩ none)
          ⟨[((DataTypeM.prim .int64, true) : DataTypeM × Bool)].enum.map
            (fun p => specKeyField p.1 p.2) ++
            (DFSchemaM.mk [⟨some "t", "a", .prim .int64, true⟩,
              ⟨some "t", "_timestamp", .prim .tsNanosecond, false⟩]).fields⟩)
        (List.range [JExpr.column (some "t") "a"].length) (some "left")) :=
  c4_join_key_projection _ _ "left" [(.prim .int64, true)] rfl (by rfl)

/-- C9 counterexample: a join whose left side carries `_is_retract` is
rejected with a `DataFusionError::Plan` (via `plan_err!`), not a
`NotImplemented` error as claimed. -/
theorem c9_counterexample :
    joinRewriterFUp (.join
      (.scan "l" ⟨[⟨some "l", "_is_retract", .prim .boolean, false⟩,
        ⟨some "l", "_timestamp", .prim .tsNanosecond, false⟩]⟩ none)
      (.scan "r" ⟨[⟨some "r", "_timestamp", .prim .tsNanosecond, false⟩]⟩ none)
      [] none .inner .onConstraint ⟨[]⟩ false) =
      .error (.plan "can't handle updating left side of join") := by
  rfl

/-- C9 (amended): a join that passes the windowing check and has the
`ON`/`null_equals_null = false` shape, with `_is_retract` on either side, is
rejected by the join rewriter before any rewriting, with a
`DataFusionError::Plan` carrying the updating-side message. -/
theorem c9_updating_join_rejection (left right : JPlan)
    (onCols : List (JExpr × JExpr)) (filter : Option JExpr)
    (joinType : JoinTypeM) (schema : DFSchemaM) (isInstant : Bool)
    (hwin : checkJoinWindowing left right joinType = .ok isInstant)
    (hret : hasColumnWithUnqualifiedName left.outSchema IS_RETRACT_FIELD = true ∨
      hasColumnWithUnqualifiedName right.outSchema IS_RETRACT_FIELD = true) :
    joinRewriterFUp (.join left right onCols filter joinType .onConstraint schema false) =
      .error (.plan
        (if hasColumnWithUnqualifiedName left.outSchema IS_RETRACT_FIELD
         then "can't handle updating left side of join"
         else "can't handle updating right side of join")) := by
  by_cases hl : hasColumnWithUnqualifiedName left.outSchema IS_RETRACT_FIELD = true
  · simp only [joinRewriterFUp, hwin, checkUpdating, hl, if_true, if_pos]
  · have hr : hasColumnWithUnqualifiedName right.outSchema IS_RETRACT_FIELD = true := by
      rcases hret with h | h
      · exact absurd h hl
      · exact h
    simp only [joinRewriterFUp, hwin, checkUpdating, hr, if_true]
    rw [if_neg hl, if_neg hl]

/-- Witness for C9 (amended) at a concrete right-side updating join. -/
theorem c9_witness :
    joinRewriterFUp (.join
      (.scan "l" ⟨[⟨some "l", "_timestamp", .prim .tsNanosecond, false⟩]⟩ none)
      (.scan "r" ⟨[⟨some "r", "_is_retract", .prim .boolean, false⟩,
        ⟨some "r", "_timestamp", .prim .tsNanosecond, false⟩]⟩ none)
      [] none .inner .onConstraint ⟨[]⟩ false) =
      .error (.plan
        (if hasColumnWithUnqualifiedName
            (JPlan.scan "l" ⟨[⟨some "l", "_timestamp", .prim .tsNanosecond, false⟩]⟩
              none).outSchema IS_RETRACT_FIELD
         then "can't handle updating left side of join"
         else "can't handle updating right side of join")) :=
  c9_updating_join_rejection _ _ [] none .inner ⟨[]⟩ false rfl (Or.inr (by rfl))

/-! ## Plan-to-graph visitor (src/crates/arroyo-df/src/builder.rs, lines 40-332)

The visitor walks a DataFusion logical plan.  `LPlan` keeps what the visitor
distinguishes: `Extension` nodes (with the data the visitor reads off the
converted `ArroyoExtension`: stable name, output schema, inputs, and whether
conversion or `plan_node` fails) and all other relational nodes, which the
visitor passes through.  `ArroyoExtension::plan_node` implementations are
not under src/; modelled from the spec: it returns one graph node and one
edge per input schema, the edge carrying the extension's shuffle semantics
and that input's schema.  The traversal is DataFusion's `TreeNode::visit`:
`pre_visit`, then the children unless it returned `Skip`, then `post_visit`
(`Stop` is never produced here).  Rust `Vec` push/pop/last act on the vector
end; the Lean lists below keep the stack top at the head.
-/

inductive NamedNode where
  | source (table : String)
  | watermark (table : String)
  | remoteTable (table : String)
deriving DecidableEq, Repr

inductive EdgeKindM where
  | forward
  | shuffle (keyIndices : List Nat)
  | broadcast
deriving DecidableEq, Repr

/-- A `LogicalEdge`: shuffle kind plus the schema flowing on the edge. -/
structure EdgeM where
  kind : EdgeKindM
  schema : ArroyoSchemaM
deriving DecidableEq, Repr

/-- A `LogicalNode`: the stable name and output schema of the extension it
was built from, plus its operator config as an opaque payload. -/
structure NodeM where
  name : Option NamedNode
  schema : ArroyoSchemaM
  payload : Nat
deriving DecidableEq, Repr

structure GraphEdge where
  source : Nat
  target : Nat
  edge : EdgeM
deriving DecidableEq, Repr

/-- A petgraph `DiGraph`: nodes indexed by position; `add_node` appends and
returns the index, `add_edge` appends. -/
structure GraphM where
  nodes : List NodeM
  edges : List GraphEdge
deriving DecidableEq, Repr

/-- The data the visitor reads off a converted `ArroyoExtension`. -/
structure ExtData where
  name : Option NamedNode
  outSchema : ArroyoSchemaM
  edgeKind : EdgeKindM
  payload : Nat
  convertFails : Bool
  planFails : Bool
deriving DecidableEq, Repr

inductive LPlan where
  | ext (e : ExtData) (inputs : List LPlan)
  | other (inputs : List LPlan)

/-- `PlanToGraphVisitor`'s state (src/crates/arroyo-df/src/builder.rs,
lines 40-49): the graph, per-node output schemas, the name-dedup map, and
the traversal stack of child-index frames. -/
structure VState where
  graph : GraphM
  outputSchemas : List (Nat × ArroyoSchemaM)
  namedNodes : List (NamedNode × Nat)
  traversal : List (List Nat)
deriving DecidableEq, Repr

/-- `HashMap` lookup (insertion is modelled as prepending, so the first
match is the current binding). -/
def lookupAssoc [DecidableEq κ] (l : List (κ × ν)) (k : κ) : Option ν :=
  match l.find? (fun p => p.1 = k) with
  | some p => some p.2
  | none => none

/-- `PlanToGraphVisitor::add_index_to_traversal`: push onto the innermost
frame, if any. -/
def addIndexToTraversal (st : VState) (idx : Nat) : VState :=
  match st.traversal with
  | [] => st
  | f :: fs => { st with traversal := (f ++ [idx]) :: fs }

inductive VisitRec where
  | continueRec
  | skipRec
deriving DecidableEq, Repr

/-- `TreeNodeVisitor::pre_visit` (src/crates/arroyo-df/src/builder.rs,
lines 292-311). -/
def preVisit (st : VState) (p : LPlan) : Except DFError (VState × VisitRec) :=
  match p with
  | .other _ => .ok (st, .continueRec)
  | .ext e inputs =>
    if e.convertFails then .error (.plan "error converting extension")
    else
      match e.name.bind (lookupAssoc st.namedNodes) with
      | some nodeIndex => .ok (addIndexToTraversal st nodeIndex, .skipRec)
      | none =>
        if inputs.isEmpty then .ok (st, .continueRec)
        else .ok ({ st with traversal := [] :: st.traversal }, .continueRec)

/-- The "we should've short circuited" check at the top of
`build_extension`. -/
def nameAlreadyPlanned (st : VState) (e : ExtData) : Bool :=
  match e.name with
  | some nm => (lookupAssoc st.namedNodes nm).isSome
  | none => false

/-- The per-input schema lookup inside `build_extension`. -/
def schemaLookup (st : VState) (i : Nat) : Except DFError ArroyoSchemaM :=
  match lookupAssoc st.outputSchemas i with
  | some s => .ok s
  | none => .error (.plan "missing input node")

/-- `PlanToGraphVisitor::build_extension` (src/crates/arroyo-df/src/builder.rs,
lines 248-286): check the name has not been planned, look up the input
schemas, call `plan_node`, insert the node, push its index to the enclosing
frame, add one edge per input in order, record the output schema, and
register the stable name. -/
def buildExtension (st : VState) (inputNodes : List Nat) (e : ExtData) :
    Except DFError VState :=
  if nameAlreadyPlanned st e then
    .error (.plan "extension has already been planned, shouldn't try again.")
  else
    match exceptMapM (schemaLookup st) inputNodes with
    | .error er => .error er
    | .ok inputSchemas =>
      if e.planFails then .error (.plan "error planning extension")
      else
        let node : NodeM := ⟨e.name, e.outSchema, e.payload⟩
        let edges := inputSchemas.map (fun s => EdgeM.mk e.edgeKind s)
        let nodeIndex := st.graph.nodes.length
        let st1 := { st with graph := { st.graph with nodes := st.graph.nodes ++ [node] } }
        let st2 := addIndexToTraversal st1 nodeIndex
        let st3 := { st2 with graph := { st2.graph with
          edges := st2.graph.edges ++
            (inputNodes.zip edges).map (fun pr : Nat × EdgeM => GraphEdge.mk pr.1 nodeIndex pr.2) } }
        let st4 := { st3 with outputSchemas := (nodeIndex, e.outSchema) :: st3.outputSchemas }
        match e.name with
        | some nm => .ok { st4 with namedNodes := (nm, nodeIndex) :: st4.namedNodes }
        | none => .ok st4

/-- `TreeNodeVisitor::post_visit` (src/crates/arroyo-df/src/builder.rs,
lines 314-331): pop the frame (for extensions with inputs), convert, build. -/
def postVisit (st : VState) (p : LPlan) : Except DFError VState :=
  match p with
  | .other _ => .ok st
  | .ext e inputs =>
    let popped : List Nat × VState :=
      if inputs.isEmpty then ([], st)
      else
        match st.traversal with
        | [] => ([], st)
        | f :: fs => (f, { st with traversal := fs })
    if e.convertFails then .error (.plan "error converting extension")
    else
      match buildExtension popped.2 popped.1 e with
      | .error er => .error (.plan ("error building extension: " ++ er.display))
      | .ok st2 => .ok st2

mutual

/-- `TreeNode::visit`: pre-visit, then the children unless skipped, then
post-visit. -/
def visitPlan (st : VState) (p : LPlan) : Except DFError VState :=
  match preVisit st p with
  | .error e => .error e
  | .ok (st1, .skipRec) => .ok st1
  | .ok (st1, .continueRec) =>
    match p with
    | .ext e inputs =>
      match visitList st1 inputs with
      | .error er => .error er
      | .ok st2 => postVisit st2 (.ext e inputs)
    | .other inputs =>
      match visitList st1 inputs with
      | .error er => .error er
      | .ok st2 => postVisit st2 (.other inputs)

def visitList (st : VState) (ps : List LPlan) : Except DFError VState :=
  match ps with
  | [] => .ok st
  | p :: rest =>
    match visitPlan st p with
    | .error e => .error e
    | .ok st1 => visitList st1 rest

end

def initVState : VState := ⟨⟨[], []⟩, [], [], []⟩

/-- `PlanToGraphVisitor::add_plan`: clear the traversal stack and visit. -/
def addPlan (st : VState) (p : LPlan) : Except DFError VState :=
  visitPlan { st with traversal := [] } p

/-! Occurrence counting for the dedup claim: `occCount` counts the
extensions carrying a given stable name; `freeOcc` counts the occurrences
not enclosed by any extension with inputs (their indices are pushed to the
caller's frame, or dropped when the stack is empty); `boundOcc` counts the
rest; `noNamedAbove` says no occurrence sits below another named extension
(so no occurrence can be hidden inside a skipped subtree). -/

mutual

def occCount (nm : NamedNode) : LPlan → Nat
  | .ext e inputs => (if e.name = some nm then 1 else 0) + occCountList nm inputs
  | .other inputs => occCountList nm inputs

def occCountList (nm : NamedNode) : List LPlan → Nat
  | [] => 0
  | p :: rest => occCount nm p + occCountList nm rest

end

mutual

def freeOcc (nm : NamedNode) : LPlan → Nat
  | .ext e _ => if e.name = some nm then 1 else 0
  | .other inputs => freeOccList nm inputs

def freeOccList (nm : NamedNode) : List LPlan → Nat
  | [] => 0
  | p :: rest => freeOcc nm p + freeOccList nm rest

end

mutual

def boundOcc (nm : NamedNode) : LPlan → Nat
  | .ext e inputs => if e.name = some nm then 0 else occCountList nm inputs
  | .other inputs => boundOccList nm inputs

def boundOccList (nm : NamedNode) : List LPlan → Nat
  | [] => 0
  | p :: rest => boundOcc nm p + boundOccList nm rest

end

mutual

def noNamedAbove (nm : NamedNode) : LPlan → Bool
  | .ext e inputs =>
    if e.name.isSome then occCountList nm inputs = 0
    else noNamedAboveList nm inputs
  | .other inputs => noNamedAboveList nm inputs

def noNamedAboveList (nm : NamedNode) : List LPlan → Bool
  | [] => true
  | p :: rest => noNamedAbove nm p && noNamedAboveList nm rest

end

mutual

def allExt : LPlan → Bool
  | .ext _ inputs => allExtList inputs
  | .other _ => false

def allExtList : List LPlan → Bool
  | [] => true
  | p :: rest => allExt p && allExtList rest

end

/-- The number of graph nodes carrying a stable name. -/
def countNamed (nm : NamedNode) (g : GraphM) : Nat :=
  (g.nodes.filter (fun n => n.name = some nm)).length

def countNamedL (nm : NamedNode) (l : List NodeM) : Nat :=
  (l.filter (fun n => n.name = some nm)).length

/-- The fan-out of a graph node: its outgoing edge count. -/
def outDegree (g : GraphM) (i : Nat) : Nat :=
  (g.edges.filter (fun ge => ge.source = i)).length

def edgesFrom (i : Nat) (l : List GraphEdge) : Nat :=
  (l.filter (fun ge => ge.source = i)).length

/-! Helper lemmas about the association lists and counters. -/

def countNat (i : Nat) (l : List Nat) : Nat :=
  (l.filter (fun j => j = i)).length

theorem lookupAssoc_cons [DecidableEq κ] (k : κ) (v : ν) (l : List (κ × ν)) (q : κ) :
    lookupAssoc ((k, v) :: l) q = if k = q then some v else lookupAssoc l q := by
  by_cases h : k = q
  · subst h
    simp [lookupAssoc, List.find?_cons_of_pos]
  · simp [lookupAssoc, List.find?_cons_of_neg, h]

theorem exceptMapM_length {f : α → Except DFError β} :
    ∀ {l : List α} {bs : List β}, exceptMapM f l = .ok bs → bs.length = l.length := by
  intro l
  induction l with
  | nil =>
    intro bs h
    simp only [exceptMapM] at h
    cases h
    rfl
  | cons a rest ih =>
    intro bs h
    simp only [exceptMapM] at h
    cases ha : f a with
    | error e => rw [ha] at h; cases h
    | ok b =>
      rw [ha] at h
      cases hr : exceptMapM f rest with
      | error e => rw [hr] at h; cases h
      | ok bs2 =>
        rw [hr] at h
        cases h
        simp [ih hr]

theorem countNat_append (i : Nat) (l1 l2 : List Nat) :
    countNat i (l1 ++ l2) = countNat i l1 + countNat i l2 := by
  simp [countNat, List.filter_append]

theorem edgesFrom_append (i : Nat) (l1 l2 : List GraphEdge) :
    edgesFrom i (l1 ++ l2) = edgesFrom i l1 + edgesFrom i l2 := by
  simp [edgesFrom, List.filter_append]

theorem countNamedL_append (nm : NamedNode) (l1 l2 : List NodeM) :
    countNamedL nm (l1 ++ l2) = countNamedL nm l1 + countNamedL nm l2 := by
  simp [countNamedL, List.filter_append]

theorem edgesFrom_cons (i : Nat) (x : GraphEdge) (l : List GraphEdge) :
    edgesFrom i (x :: l) = (if x.source = i then 1 else 0) + edgesFrom i l := by
  simp only [edgesFrom, List.filter_cons]
  by_cases h : x.source = i
  · simp [h, Nat.add_comm]
  · simp [h]

theorem countNat_cons (i a : Nat) (l : List Nat) :
    countNat i (a :: l) = (if a = i then 1 else 0) + countNat i l := by
  simp only [countNat, List.filter_cons]
  by_cases h : a = i
  · simp [h, Nat.add_comm]
  · simp [h]

theorem countNamedL_cons (nm : NamedNode) (n : NodeM) (l : List NodeM) :
    countNamedL nm (n :: l) =
      (if n.name = some nm then 1 else 0) + countNamedL nm l := by
  simp only [countNamedL, List.filter_cons]
  by_cases h : n.name = some nm
  · simp [h, Nat.add_comm]
  · simp [h]

theorem edgesFrom_zipEdges (i t : Nat) :
    ∀ (ins : List Nat) (eds : List EdgeM), eds.length = ins.length →
    edgesFrom i ((ins.zip eds).map
      (fun pr : Nat × EdgeM => GraphEdge.mk pr.1 t pr.2)) = countNat i ins := by
  intro ins
  induction ins with
  | nil => intro eds h; rfl
  | cons a rest ih =>
    intro eds h
    cases eds with
    | nil => simp at h
    | cons ed eds2 =>
      simp only [List.length_cons, Nat.succ.injEq] at h
      rw [List.zip_cons_cons, List.map_cons, edgesFrom_cons, countNat_cons,
        ih eds2 h]

/-- The visitor-state invariant: the name map points at distinctly named
nodes, per-name node counts agree with the map, and all recorded indices are
in bounds. -/
structure Inv (st : VState) : Prop where
  namesLookup : ∀ nm i, lookupAssoc st.namedNodes nm = some i →
    ∃ nd, st.graph.nodes[i]? = some nd ∧ nd.name = some nm
  namesCount : ∀ nm, countNamed nm st.graph =
    (if (lookupAssoc st.namedNodes nm).isSome then 1 else 0)
  edgesWF : ∀ ge ∈ st.graph.edges, ge.source < st.graph.nodes.length
  travWF : ∀ f ∈ st.traversal, ∀ i ∈ f, i < st.graph.nodes.length
  schemasWF : ∀ pr ∈ st.outputSchemas, pr.1 < st.graph.nodes.length

theorem initInv : Inv initVState := by
  constructor
  · intro nm i h
    simp [lookupAssoc, initVState] at h
  · intro nm
    simp [lookupAssoc, initVState, countNamed]
  · intro ge h
    simp [initVState] at h
  · intro f h
    simp [initVState] at h
  · intro pr h
    simp [initVState] at h

/-- What one successful visit does to the state: the graph grows by
appending, recorded lookups are preserved, and the traversal stack keeps its
shape with the innermost frame possibly extended. -/
structure Step (st st' : VState) : Prop where
  nodesExt : ∃ Δ, st'.graph.nodes = st.graph.nodes ++ Δ
  edgesExt : ∃ Δ, st'.graph.edges = st.graph.edges ++ Δ
  namedMono : ∀ nm i, lookupAssoc st.namedNodes nm = some i →
    lookupAssoc st'.namedNodes nm = some i
  schemasMono : ∀ i s, lookupAssoc st.outputSchemas i = some s →
    lookupAssoc st'.outputSchemas i = some s
  travNil : st.traversal = [] → st'.traversal = []
  travCons : ∀ f fs, st.traversal = f :: fs → ∃ add, st'.traversal = (f ++ add) :: fs

theorem Step.rfl (st : VState) : Step st st := by
  refine ⟨⟨[], by simp⟩, ⟨[], by simp⟩, fun _ _ h => h, fun _ _ h => h,
    fun h => h, fun f fs h => ⟨[], by simp [h]⟩⟩

theorem Step.stepTrans {s1 s2 s3 : VState} (a : Step s1 s2) (b : Step s2 s3) :
    Step s1 s3 := by
  obtain ⟨d1, hd1⟩ := a.nodesExt
  obtain ⟨d2, hd2⟩ := b.nodesExt
  obtain ⟨e1, he1⟩ := a.edgesExt
  obtain ⟨e2, he2⟩ := b.edgesExt
  refine ⟨⟨d1 ++ d2, by rw [hd2, hd1, List.append_assoc]⟩,
    ⟨e1 ++ e2, by rw [he2, he1, List.append_assoc]⟩,
    fun nm i h => b.namedMono nm i (a.namedMono nm i h),
    fun i s h => b.schemasMono i s (a.schemasMono i s h),
    fun h => b.travNil (a.travNil h), ?_⟩
  intro f fs h
  obtain ⟨add1, h1⟩ := a.travCons f fs h
  obtain ⟨add2, h2⟩ := b.travCons (f ++ add1) fs h1
  exact ⟨add1 ++ add2, by rw [h2, List.append_assoc]⟩

/-- Inversion of a successful `build_extension`. -/
theorem buildExtension_ok {st : VState} {ins : List Nat} {e : ExtData}
    {st' : VState} (h : buildExtension st ins e = .ok st') :
    nameAlreadyPlanned st e = false ∧ e.planFails = false ∧
    ∃ schemas, exceptMapM (schemaLookup st) ins = .ok schemas ∧
      st'.graph.nodes = st.graph.nodes ++ [⟨e.name, e.outSchema, e.payload⟩] ∧
      st'.graph.edges = st.graph.edges ++
        (ins.zip (schemas.map (fun s => EdgeM.mk e.edgeKind s))).map
          (fun pr : Nat × EdgeM => GraphEdge.mk pr.1 st.graph.nodes.length pr.2) ∧
      st'.outputSchemas = (st.graph.nodes.length, e.outSchema) :: st.outputSchemas ∧
      st'.namedNodes = (match e.name with
        | some nm => (nm, st.graph.nodes.length) :: st.namedNodes
        | none => st.namedNodes) ∧
      st'.traversal = (match st.traversal with
        | [] => ([] : List (List Nat))
        | f :: fs => (f ++ [st.graph.nodes.length]) :: fs) := by
  unfold buildExtension at h
  cases hnp : nameAlreadyPlanned st e with
  | true => rw [hnp] at h; cases h
  | false =>
    rw [hnp] at h
    simp only [Bool.false_eq_true, if_false] at h
    cases hs : exceptMapM (schemaLookup st) ins with
    | error er => rw [hs] at h; cases h
    | ok schemas =>
      rw [hs] at h
      cases hp : e.planFails with
      | true => rw [hp] at h; simp at h
      | false =>
        rw [hp] at h
        simp only [Bool.false_eq_true, if_false] at h
        refine ⟨rfl, rfl, schemas, rfl, ?_⟩
        cases hen : e.name with
        | some nm =>
          rw [hen] at h
          cases htr : st.traversal with
          | nil =>
            rw [htr] at h
            simp only [addIndexToTraversal, htr] at h
            cases h
            simp [addIndexToTraversal, htr, hen]
          | cons f fs =>
            rw [htr] at h
            simp only [addIndexToTraversal, htr] at h
            cases h
            simp [addIndexToTraversal, htr, hen]
        | none =>
          rw [hen] at h
          cases htr : st.traversal with
          | nil =>
            rw [htr] at h
            simp only [addIndexToTraversal, htr] at h
            cases h
            simp [addIndexToTraversal, htr, hen]
          | cons f fs =>
            rw [htr] at h
            simp only [addIndexToTraversal, htr] at h
            cases h
            simp [addIndexToTraversal, htr, hen]

/-! Unfolding lemmas for the visit. -/

/-- The state from which an extension's children are visited. -/
def pushFrame (st : VState) (inputs : List LPlan) : VState :=
  if inputs.isEmpty then st else { st with traversal := [] :: st.traversal }

theorem visitPlan_ext_convertFails {st : VState} {e : ExtData}
    {inputs : List LPlan} (h1 : e.convertFails = true) :
    visitPlan st (.ext e inputs) = .error (.plan "error converting extension") := by
  simp only [visitPlan, preVisit, h1, if_true]

theorem visitPlan_ext_skip {st : VState} {e : ExtData} {inputs : List LPlan}
    {i : Nat} (h1 : e.convertFails = false)
    (h2 : e.name.bind (lookupAssoc st.namedNodes) = some i) :
    visitPlan st (.ext e inputs) = .ok (addIndexToTraversal st i) := by
  simp only [visitPlan, preVisit, h1, Bool.false_eq_true, if_false, h2]

theorem visitPlan_ext_continue {st : VState} {e : ExtData} {inputs : List LPlan}
    (h1 : e.convertFails = false)
    (h2 : e.name.bind (lookupAssoc st.namedNodes) = none) :
    visitPlan st (.ext e inputs) =
      (match visitList (pushFrame st inputs) inputs with
       | .error er => .error er
       | .ok st2 => postVisit st2 (.ext e inputs)) := by
  simp only [visitPlan, preVisit, h1, Bool.false_eq_true, if_false, h2, pushFrame]
  cases hi : inputs.isEmpty <;> simp [hi]

theorem visitPlan_other {st : VState} {inputs : List LPlan} :
    visitPlan st (.other inputs) =
      (match visitList st inputs with
       | .error er => .error er
       | .ok st2 => .ok st2) := by
  simp only [visitPlan, preVisit]
  cases visitList st inputs <;> simp [postVisit]

theorem postVisit_ext_nilInputs {st : VState} {e : ExtData}
    (h1 : e.convertFails = false) :
    postVisit st (.ext e []) =
      (match buildExtension st [] e with
       | .error er => .error (.plan ("error building extension: " ++ er.display))
       | .ok st2 => .ok st2) := by
  simp only [postVisit, List.isEmpty_nil, if_true, h1, Bool.false_eq_true, if_false]

theorem postVisit_ext_consInputs {st : VState} {e : ExtData}
    {inputs : List LPlan} {f : List Nat} {fs : List (List Nat)}
    (h1 : e.convertFails = false) (h2 : inputs.isEmpty = false)
    (h3 : st.traversal = f :: fs) :
    postVisit st (.ext e inputs) =
      (match buildExtension { st with traversal := fs } f e with
       | .error er => .error (.plan ("error building extension: " ++ er.display))
       | .ok st2 => .ok st2) := by
  simp only [postVisit, h2, Bool.false_eq_true, if_false, h3, h1]

theorem nameAlreadyPlanned_none {st : VState} {e : ExtData} {nm0 : NamedNode}
    (hnp : nameAlreadyPlanned st e = false) (hen : e.name = some nm0) :
    lookupAssoc st.namedNodes nm0 = none := by
  unfold nameAlreadyPlanned at hnp
  rw [hen] at hnp
  change (lookupAssoc st.namedNodes nm0).isSome = false at hnp
  cases hl0 : lookupAssoc st.namedNodes nm0 with
  | none => rfl
  | some j => rw [hl0] at hnp; simp at hnp

/-- The effect of one successful `build_extension` on the invariant and the
state shape, given that the input indices are in bounds. -/
theorem buildStep {st st' : VState} {ins : List Nat} {e : ExtData}
    (hinv : Inv st) (h : buildExtension st ins e = .ok st')
    (hins : ∀ i ∈ ins, i < st.graph.nodes.length) :
    Inv st' ∧ Step st st' := by
  obtain ⟨hnp, hpf, schemas, hs, hnodes, hedges, hschemas, hnamed, htrav⟩ :=
    buildExtension_ok h
  have hlen : st'.graph.nodes.length = st.graph.nodes.length + 1 := by
    rw [hnodes, List.length_append, List.length_singleton]
  have hNewSources : ∀ ge ∈ st'.graph.edges, ge.source < st.graph.nodes.length := by
    intro ge hge
    rw [hedges] at hge
    rcases List.mem_append.mp hge with hold | hnew
    · exact hinv.edgesWF ge hold
    · obtain ⟨pr, hpr, hpe⟩ := List.mem_map.mp hnew
      have : pr.1 ∈ ins := (List.of_mem_zip hpr).1
      rw [← hpe]
      exact hins pr.1 this
  constructor
  · constructor
    · -- namesLookup
      intro nm i hl
      cases hen : e.name with
      | some nm0 =>
        rw [hnamed, hen] at hl
        rw [lookupAssoc_cons] at hl
        by_cases hq : nm0 = nm
        · rw [if_pos hq] at hl
          cases hl
          refine ⟨⟨e.name, e.outSchema, e.payload⟩, ?_, by rw [hen, hq]⟩
          rw [hnodes]
          exact List.getElem?_concat_length _ _
        · rw [if_neg hq] at hl
          obtain ⟨nd, hnd, hname⟩ := hinv.namesLookup nm i hl
          refine ⟨nd, ?_, hname⟩
          rw [hnodes, List.getElem?_append, if_pos (List.getElem?_eq_some.mp hnd).1]
          exact hnd
      | none =>
        rw [hnamed, hen] at hl
        obtain ⟨nd, hnd, hname⟩ := hinv.namesLookup nm i hl
        refine ⟨nd, ?_, hname⟩
        rw [hnodes, List.getElem?_append, if_pos (List.getElem?_eq_some.mp hnd).1]
        exact hnd
    · -- namesCount
      intro nm
      have hgc : countNamed nm st'.graph =
          countNamed nm st.graph + (if e.name = some nm then 1 else 0) := by
        have h1 : countNamedL nm [⟨e.name, e.outSchema, e.payload⟩] =
            (if e.name = some nm then 1 else 0) := by
          rw [countNamedL_cons]
          simp [countNamedL]
        show countNamedL nm st'.graph.nodes =
          countNamedL nm st.graph.nodes + (if e.name = some nm then 1 else 0)
        rw [hnodes, countNamedL_append, h1]
      rw [hgc, hinv.namesCount nm]
      cases hen : e.name with
      | some nm0 =>
        rw [hnamed, hen, lookupAssoc_cons]
        have h0 : lookupAssoc st.namedNodes nm0 = none :=
          nameAlreadyPlanned_none hnp hen
        by_cases hq : nm0 = nm
        · subst hq
          rw [h0]
          simp
        · rw [if_neg hq]
          have : (some nm0 = some nm) = False := by
            simp [hq]
          simp [this]
      | none =>
        rw [hnamed, hen]
        simp
    · -- edgesWF
      intro ge hge
      have := hNewSources ge hge
      omega
    · -- travWF
      intro f hf i hi
      rw [hlen]
      cases htr : st.traversal with
      | nil =>
        rw [htr] at htrav
        rw [htrav] at hf
        simp at hf
      | cons f0 fs0 =>
        rw [htr] at htrav
        rw [htrav] at hf
        rcases List.mem_cons.mp hf with hh | ht
        · subst hh
          rcases List.mem_append.mp hi with h1 | h2
          · have := hinv.travWF f0 (by rw [htr]; exact List.mem_cons_self _ _) i h1
            omega
          · simp at h2
            omega
        · have := hinv.travWF f (by rw [htr]; exact List.mem_cons_of_mem _ ht) i hi
          omega
    · -- schemasWF
      intro pr hpr
      rw [hschemas] at hpr
      rcases List.mem_cons.mp hpr with hh | ht
      · subst hh
        omega
      · have := hinv.schemasWF pr ht
        omega
  · constructor
    · exact ⟨_, hnodes⟩
    · exact ⟨_, hedges⟩
    · -- namedMono
      intro nm i hl
      cases hen : e.name with
      | some nm0 =>
        rw [hnamed, hen, lookupAssoc_cons]
        have h0 : lookupAssoc st.namedNodes nm0 = none :=
          nameAlreadyPlanned_none hnp hen
        have hq : nm0 ≠ nm := by
          intro hc
          subst hc
          rw [h0] at hl
          cases hl
        rw [if_neg hq]
        exact hl
      | none =>
        rw [hnamed, hen]
        exact hl
    · -- schemasMono
      intro i s hl
      rw [hschemas, lookupAssoc_cons]
      have hq : st.graph.nodes.length ≠ i := by
        intro hc
        obtain ⟨pr, hpr⟩ : ∃ pr, st.outputSchemas.find?
            (fun p => p.1 = i) = some pr := by
          unfold lookupAssoc at hl
          cases hf : st.outputSchemas.find? (fun p => p.1 = i) with
          | none => rw [hf] at hl; cases hl
          | some pr => exact ⟨pr, rfl⟩
        have hmem := List.mem_of_find?_eq_some hpr
        have heq : pr.1 = i := by
          have := List.find?_some hpr
          simpa using this
        have := hinv.schemasWF pr hmem
        omega
      rw [if_neg hq]
      exact hl
    · -- travNil
      intro h0
      rw [h0] at htrav
      exact htrav
    · -- travCons
      intro f fs h0
      rw [h0] at htrav
      exact ⟨[st.graph.nodes.length], htrav⟩

theorem replaceTravInv {st : VState} {fs : List (List Nat)} (hinv : Inv st)
    (hsub : ∀ f ∈ fs, ∀ i ∈ f, i < st.graph.nodes.length) :
    Inv { st with traversal := fs } :=
  ⟨hinv.namesLookup, hinv.namesCount, hinv.edgesWF, hsub, hinv.schemasWF⟩

theorem pushFrame_inv {st : VState} (hinv : Inv st) (inputs : List LPlan) :
    Inv (pushFrame st inputs) := by
  unfold pushFrame
  cases hi : inputs.isEmpty with
  | true => simpa using hinv
  | false =>
    simp only [Bool.false_eq_true, if_false]
    refine replaceTravInv hinv ?_
    intro f hf i hi2
    rcases List.mem_cons.mp hf with hh | ht
    · subst hh; simp at hi2
    · exact hinv.travWF f ht i hi2

theorem addIndexStep {st : VState} {i : Nat} (hinv : Inv st)
    (hi : i < st.graph.nodes.length) :
    Inv (addIndexToTraversal st i) ∧ Step st (addIndexToTraversal st i) := by
  cases htr : st.traversal with
  | nil =>
    simp only [addIndexToTraversal, htr]
    exact ⟨hinv, Step.rfl st⟩
  | cons f fs =>
    simp only [addIndexToTraversal, htr]
    constructor
    · refine replaceTravInv hinv ?_
      intro g hg j hj
      rcases List.mem_cons.mp hg with hh | ht
      · subst hh
        rcases List.mem_append.mp hj with h1 | h2
        · exact hinv.travWF f (by rw [htr]; exact List.mem_cons_self _ _) j h1
        · simp at h2; subst h2; exact hi
      · exact hinv.travWF g (by rw [htr]; exact List.mem_cons_of_mem _ ht) j hj
    · refine ⟨⟨[], by simp⟩, ⟨[], by simp⟩, fun _ _ h => h, fun _ _ h => h, ?_, ?_⟩
      · intro h0; rw [htr] at h0; cases h0
      · intro g gs h0
        rw [htr] at h0
        injection h0 with h1 h2
        subst h1
        subst h2
        exact ⟨[i], rfl⟩

mutual

theorem shapePlan : ∀ (p : LPlan) (st st' : VState),
    visitPlan st p = .ok st' → Inv st → Inv st' ∧ Step st st'
  | .other inputs, st, st', h, hinv => by
    rw [visitPlan_other] at h
    cases hv : visitList st inputs with
    | error er => rw [hv] at h; cases h
    | ok st2 =>
      rw [hv] at h
      cases h
      exact shapeList inputs st _ hv hinv
  | .ext e inputs, st, st', h, hinv => by
    cases hcf : e.convertFails with
    | true => rw [visitPlan_ext_convertFails hcf] at h; cases h
    | false =>
      cases hl : e.name.bind (lookupAssoc st.namedNodes) with
      | some i =>
        rw [visitPlan_ext_skip hcf hl] at h
        cases h
        obtain ⟨nm0, hen, hlk⟩ : ∃ nm0, e.name = some nm0 ∧
            lookupAssoc st.namedNodes nm0 = some i := by
          cases hen : e.name with
          | none => rw [hen] at hl; cases hl
          | some nm0 => rw [hen] at hl; exact ⟨nm0, rfl, hl⟩
        obtain ⟨nd, hnd, _⟩ := hinv.namesLookup nm0 i hlk
        exact addIndexStep hinv (List.getElem?_eq_some.mp hnd).1
      | none =>
        rw [visitPlan_ext_continue hcf hl] at h
        cases hv : visitList (pushFrame st inputs) inputs with
        | error er => rw [hv] at h; cases h
        | ok st2 =>
          rw [hv] at h
          change postVisit st2 (LPlan.ext e inputs) = Except.ok st' at h
          obtain ⟨hinv2, hstep2⟩ :=
            shapeList inputs (pushFrame st inputs) st2 hv (pushFrame_inv hinv inputs)
          cases hie : inputs.isEmpty with
          | true =>
            have hnil : inputs = [] := List.isEmpty_iff.mp hie
            subst hnil
            have hinv2x : Inv st2 := hinv2
            have hstep2x : Step st st2 := hstep2
            rw [postVisit_ext_nilInputs hcf] at h
            cases hb : buildExtension st2 [] e with
            | error er => rw [hb] at h; cases h
            | ok st3 =>
              rw [hb] at h
              cases h
              obtain ⟨hinv3, hstep3⟩ := buildStep hinv2x hb (by intro j hj; cases hj)
              exact ⟨hinv3, hstep2x.stepTrans hstep3⟩
          | false =>
            have hp : pushFrame st inputs = { st with traversal := [] :: st.traversal } := by
              simp [pushFrame, hie]
            rw [hp] at hstep2
            have hstep2x : Step { st with traversal := [] :: st.traversal } st2 := hstep2
            obtain ⟨add, hadd⟩ := hstep2x.travCons [] st.traversal rfl
            simp only [List.nil_append] at hadd
            rw [postVisit_ext_consInputs hcf hie hadd] at h
            cases hb : buildExtension { st2 with traversal := st.traversal } add e with
            | error er => rw [hb] at h; cases h
            | ok st3 =>
              rw [hb] at h
              cases h
              have hinvPop : Inv { st2 with traversal := st.traversal } := by
                refine replaceTravInv hinv2 ?_
                intro f hf j hj
                exact hinv2.travWF f (by rw [hadd]; exact List.mem_cons_of_mem _ hf) j hj
              have hbounds : ∀ j ∈ add, j < st2.graph.nodes.length := fun j hj =>
                hinv2.travWF add (by rw [hadd]; exact List.mem_cons_self _ _) j hj
              obtain ⟨hinv3, hstep3⟩ := buildStep hinvPop hb hbounds
              refine ⟨hinv3, ?_⟩
              obtain ⟨d1, hd1⟩ := hstep2x.nodesExt
              obtain ⟨d2, hd2⟩ := hstep3.nodesExt
              obtain ⟨e1, he1⟩ := hstep2x.edgesExt
              obtain ⟨e2, he2⟩ := hstep3.edgesExt
              have hd1x : st2.graph.nodes = st.graph.nodes ++ d1 := hd1
              have hd2x : st'.graph.nodes = st2.graph.nodes ++ d2 := hd2
              have he1x : st2.graph.edges = st.graph.edges ++ e1 := he1
              have he2x : st'.graph.edges = st2.graph.edges ++ e2 := he2
              refine ⟨⟨d1 ++ d2, by rw [hd2x, hd1x, List.append_assoc]⟩,
                ⟨e1 ++ e2, by rw [he2x, he1x, List.append_assoc]⟩,
                fun nm j hj => hstep3.namedMono nm j (hstep2x.namedMono nm j hj),
                fun j s hj => hstep3.schemasMono j s (hstep2x.schemasMono j s hj),
                ?_, ?_⟩
              · intro h0
                exact hstep3.travNil h0
              · intro f fs h0
                exact hstep3.travCons f fs h0

theorem shapeList : ∀ (ps : List LPlan) (st st' : VState),
    visitList st ps = .ok st' → Inv st → Inv st' ∧ Step st st'
  | [], st, st', h, hinv => by
    simp only [visitList] at h
    cases h
    exact ⟨hinv, Step.rfl st⟩
  | p :: rest, st, st', h, hinv => by
    simp only [visitList] at h
    cases hv : visitPlan st p with
    | error er => rw [hv] at h; cases h
    | ok st1 =>
      rw [hv] at h
      obtain ⟨i1, s1⟩ := shapePlan p st st1 hv hinv
      obtain ⟨i2, s2⟩ := shapeList rest st1 st' h i1
      exact ⟨i2, s1.stepTrans s2⟩

end

/-! Counting lemmas for the name-dedup claim. -/

theorem countNat_eq_zero {t : Nat} {l : List Nat} (h : ∀ i ∈ l, i ≠ t) :
    countNat t l = 0 := by
  simp only [countNat, List.length_eq_zero, List.filter_eq_nil_iff]
  intro a ha
  simpa using h a ha

theorem countNat_singleton (t x : Nat) :
    countNat t [x] = if x = t then 1 else 0 := by
  rw [countNat_cons]
  simp [countNat]

theorem edgesFrom_zero_of_lt {b : Nat} {l : List GraphEdge}
    (h : ∀ ge ∈ l, ge.source < b) : edgesFrom b l = 0 := by
  simp only [edgesFrom, List.length_eq_zero, List.filter_eq_nil_iff]
  intro ge hge
  have := h ge hge
  simp only [decide_eq_true_eq]
  omega

mutual

theorem occ0_noNamedAbove (nm : NamedNode) :
    ∀ (p : LPlan), occCount nm p = 0 → noNamedAbove nm p = true
  | .ext e inputs, h => by
    simp only [occCount] at h
    simp only [noNamedAbove]
    cases hen : e.name.isSome with
    | true =>
      simp only [if_true]
      simpa using Nat.eq_zero_of_add_eq_zero_left h
    | false =>
      simp only [Bool.false_eq_true, if_false]
      exact occ0_noNamedAboveList nm inputs (Nat.eq_zero_of_add_eq_zero_left h)
  | .other inputs, h => by
    simp only [occCount] at h
    simp only [noNamedAbove]
    exact occ0_noNamedAboveList nm inputs h

theorem occ0_noNamedAboveList (nm : NamedNode) :
    ∀ (ps : List LPlan), occCountList nm ps = 0 → noNamedAboveList nm ps = true
  | [], _ => rfl
  | p :: rest, h => by
    simp only [occCountList] at h
    simp only [noNamedAboveList, Bool.and_eq_true]
    exact ⟨occ0_noNamedAbove nm p (Nat.eq_zero_of_add_eq_zero_right h),
      occ0_noNamedAboveList nm rest (Nat.eq_zero_of_add_eq_zero_left h)⟩

end

mutual

theorem occ0_bound_free (nm : NamedNode) :
    ∀ (p : LPlan), occCount nm p = 0 → boundOcc nm p = 0 ∧ freeOcc nm p = 0
  | .ext e inputs, h => by
    simp only [occCount] at h
    have h1 : (if e.name = some nm then 1 else 0) = 0 :=
      Nat.eq_zero_of_add_eq_zero_right h
    have h2 : occCountList nm inputs = 0 := Nat.eq_zero_of_add_eq_zero_left h
    have hne : ¬ e.name = some nm := by
      intro hc
      rw [if_pos hc] at h1
      cases h1
    simp only [boundOcc, freeOcc, if_neg hne]
    exact ⟨h2, trivial⟩
  | .other inputs, h => by
    simp only [occCount] at h
    simp only [boundOcc, freeOcc]
    exact occ0_bound_freeList nm inputs h

theorem occ0_bound_freeList (nm : NamedNode) :
    ∀ (ps : List LPlan), occCountList nm ps = 0 →
      boundOccList nm ps = 0 ∧ freeOccList nm ps = 0
  | [], _ => ⟨rfl, rfl⟩
  | p :: rest, h => by
    simp only [occCountList] at h
    obtain ⟨b1, f1⟩ := occ0_bound_free nm p (Nat.eq_zero_of_add_eq_zero_right h)
    obtain ⟨b2, f2⟩ := occ0_bound_freeList nm rest (Nat.eq_zero_of_add_eq_zero_left h)
    simp only [boundOccList, freeOccList, b1, f1, b2, f2]
    exact ⟨trivial, trivial⟩

end

mutual

theorem bound_free_occ (nm : NamedNode) :
    ∀ (p : LPlan), noNamedAbove nm p = true →
      boundOcc nm p + freeOcc nm p = occCount nm p
  | .ext e inputs, h => by
    simp only [noNamedAbove] at h
    cases hen : e.name with
    | some nm0 =>
      rw [hen] at h
      simp only [Option.isSome_some, if_true, decide_eq_true_eq] at h
      by_cases hq : some nm0 = some nm
      · simp only [boundOcc, freeOcc, occCount, hen, hq, if_pos, h]
      · simp only [boundOcc, freeOcc, occCount, hen, if_neg hq, h]
    | none =>
      rw [hen] at h
      simp only [Option.isSome_none, Bool.false_eq_true, if_false] at h
      have hx := bound_free_occList nm inputs h
      have hne : ¬ (none : Option NamedNode) = some nm := by simp
      simp only [boundOcc, freeOcc, occCount, hen, if_neg hne]
      omega

  | .other inputs, h => by
    simp only [noNamedAbove] at h
    simp only [boundOcc, freeOcc, occCount]
    exact bound_free_occList nm inputs h

theorem bound_free_occList (nm : NamedNode) :
    ∀ (ps : List LPlan), noNamedAboveList nm ps = true →
      boundOccList nm ps + freeOccList nm ps = occCountList nm ps
  | [], _ => rfl
  | p :: rest, h => by
    simp only [noNamedAboveList, Bool.and_eq_true] at h
    have h1 := bound_free_occ nm p h.1
    have h2 := bound_free_occList nm rest h.2
    simp only [boundOccList, freeOccList, occCountList]
    omega

end

/-- Traversal bookkeeping: across a visit the innermost frame gains entries
containing the target index `t` exactly `k` times. -/
def TravAdd (st st' : VState) (t : Nat) (k : Nat) : Prop :=
  (st.traversal = [] → st'.traversal = []) ∧
  (∀ f fs, st.traversal = f :: fs →
    ∃ add, st'.traversal = (f ++ add) :: fs ∧ countNat t add = k)

theorem TravAdd.travTrans {s1 s2 s3 : VState} {t k1 k2 : Nat}
    (a : TravAdd s1 s2 t k1) (b : TravAdd s2 s3 t k2) :
    TravAdd s1 s3 t (k1 + k2) := by
  constructor
  · intro h
    exact b.1 (a.1 h)
  · intro f fs h
    obtain ⟨a1, ha1, hc1⟩ := a.2 f fs h
    obtain ⟨a2, ha2, hc2⟩ := b.2 (f ++ a1) fs ha1
    refine ⟨a1 ++ a2, by rw [ha2, List.append_assoc], ?_⟩
    rw [countNat_append, hc1, hc2]

theorem travAdd_refl (st : VState) (t : Nat) : TravAdd st st t 0 := by
  constructor
  · intro h; exact h
  · intro f fs h
    exact ⟨[], by simp [h], rfl⟩

/-- A visit that only appends in-bounds indices adds no occurrence of an
index at or beyond the node count. -/
theorem travAdd_of_step_big {st st1 : VState} (hs : Step st st1) (hinv1 : Inv st1)
    {b : Nat} (hb : st1.graph.nodes.length ≤ b) : TravAdd st st1 b 0 := by
  constructor
  · exact hs.travNil
  · intro f fs h
    obtain ⟨add, hadd⟩ := hs.travCons f fs h
    refine ⟨add, hadd, countNat_eq_zero ?_⟩
    intro i hi
    have hmem : i ∈ f ++ add := List.mem_append_right f hi
    have := hinv1.travWF (f ++ add) (by rw [hadd]; exact List.mem_cons_self _ _) i hmem
    omega

/-- Node-count bookkeeping: the node list grows by a suffix containing `k`
nodes named `nm`. -/
def NodesAdd (st st' : VState) (nm : NamedNode) (k : Nat) : Prop :=
  ∃ Δ, st'.graph.nodes = st.graph.nodes ++ Δ ∧ countNamedL nm Δ = k

/-- Edge bookkeeping: the edge list grows by a suffix containing `k` edges
out of node `t`. -/
def EdgesAdd (st st' : VState) (t : Nat) (k : Nat) : Prop :=
  ∃ Δ, st'.graph.edges = st.graph.edges ++ Δ ∧ edgesFrom t Δ = k

theorem NodesAdd.nodesTrans {s1 s2 s3 : VState} {nm : NamedNode} {k1 k2 : Nat}
    (a : NodesAdd s1 s2 nm k1) (b : NodesAdd s2 s3 nm k2) :
    NodesAdd s1 s3 nm (k1 + k2) := by
  obtain ⟨d1, hd1, hc1⟩ := a
  obtain ⟨d2, hd2, hc2⟩ := b
  exact ⟨d1 ++ d2, by rw [hd2, hd1, List.append_assoc],
    by rw [countNamedL_append, hc1, hc2]⟩

theorem EdgesAdd.edgesTrans {s1 s2 s3 : VState} {t : Nat} {k1 k2 : Nat}
    (a : EdgesAdd s1 s2 t k1) (b : EdgesAdd s2 s3 t k2) :
    EdgesAdd s1 s3 t (k1 + k2) := by
  obtain ⟨d1, hd1, hc1⟩ := a
  obtain ⟨d2, hd2, hc2⟩ := b
  exact ⟨d1 ++ d2, by rw [hd2, hd1, List.append_assoc],
    by rw [edgesFrom_append, hc1, hc2]⟩

theorem edgesAdd_of_step_big {s1 s2 : VState} (hs : Step s1 s2) (hi : Inv s2)
    {b : Nat} (hb : s2.graph.nodes.length ≤ b) : EdgesAdd s1 s2 b 0 := by
  obtain ⟨Δ, hΔ⟩ := hs.edgesExt
  refine ⟨Δ, hΔ, edgesFrom_zero_of_lt ?_⟩
  intro ge hge
  have hmem : ge ∈ s2.graph.edges := by
    rw [hΔ]
    exact List.mem_append_right _ hge
  have := hi.edgesWF ge hmem
  omega

/-- The counting facts one successful visit establishes for a stable name
`nm`, parameterized by the occurrence counts of the visited subforest. -/
def CountFacts (nm : NamedNode) (occ bound free : Nat) (st st' : VState) : Prop :=
  match lookupAssoc st.namedNodes nm with
  | some i =>
      lookupAssoc st'.namedNodes nm = some i ∧
      NodesAdd st st' nm 0 ∧ EdgesAdd st st' i bound ∧ TravAdd st st' i free
  | none =>
      if occ = 0 then
        lookupAssoc st'.namedNodes nm = none ∧ NodesAdd st st' nm 0
      else
        ∃ b, lookupAssoc st'.namedNodes nm = some b ∧
          st.graph.nodes.length ≤ b ∧ NodesAdd st st' nm 1 ∧
          EdgesAdd st st' b bound ∧ TravAdd st st' b free

theorem CountFacts.comp {nm : NamedNode} {o1 b1 f1 o2 b2 f2 : Nat}
    {s1 s2 s3 : VState}
    (h1 : CountFacts nm o1 b1 f1 s1 s2) (h2 : CountFacts nm o2 b2 f2 s2 s3)
    (hs12 : Step s1 s2) (hi2 : Inv s2)
    (hz1 : o1 = 0 → b1 = 0 ∧ f1 = 0) :
    CountFacts nm (o1 + o2) (b1 + b2) (f1 + f2) s1 s3 := by
  unfold CountFacts at h1 h2 ⊢
  cases hlk : lookupAssoc s1.namedNodes nm with
  | some i =>
    rw [hlk] at h1
    obtain ⟨hl2, hn1, he1, ht1⟩ := h1
    rw [hl2] at h2
    obtain ⟨hl3, hn2, he2, ht2⟩ := h2
    exact ⟨hl3, hn1.nodesTrans hn2, he1.edgesTrans he2, ht1.travTrans ht2⟩
  | none =>
    rw [hlk] at h1
    by_cases ho1 : o1 = 0
    · rw [if_pos ho1] at h1
      obtain ⟨hl2, hn1⟩ := h1
      obtain ⟨hb1z, hf1z⟩ := hz1 ho1
      rw [hl2] at h2
      by_cases ho2 : o2 = 0
      · rw [if_pos ho2] at h2
        obtain ⟨hl3, hn2⟩ := h2
        rw [if_pos (by omega : o1 + o2 = 0)]
        exact ⟨hl3, by have := hn1.nodesTrans hn2; simpa using this⟩
      · rw [if_neg ho2] at h2
        obtain ⟨b, hl3, hble, hn2, he2, ht2⟩ := h2
        rw [if_neg (by omega : ¬ o1 + o2 = 0)]
        refine ⟨b, hl3, ?_, ?_, ?_, ?_⟩
        · obtain ⟨d, hd⟩ := hs12.nodesExt
          rw [hd] at hble
          rw [List.length_append] at hble
          omega
        · have := hn1.nodesTrans hn2
          simpa using this
        · have h0 : EdgesAdd s1 s2 b 0 := edgesAdd_of_step_big hs12 hi2 hble
          have := h0.edgesTrans he2
          simpa [hb1z] using this
        · have h0 : TravAdd s1 s2 b 0 := travAdd_of_step_big hs12 hi2 hble
          have := h0.travTrans ht2
          simpa [hf1z] using this
    · rw [if_neg ho1] at h1
      obtain ⟨b, hl2, hble, hn1, he1, ht1⟩ := h1
      rw [hl2] at h2
      obtain ⟨hl3, hn2, he2, ht2⟩ := h2
      rw [if_neg (by omega : ¬ o1 + o2 = 0)]
      refine ⟨b, hl3, hble, ?_, he1.edgesTrans he2, ht1.travTrans ht2⟩
      have := hn1.nodesTrans hn2
      simpa using this

theorem pushFrame_namedNodes (st : VState) (inputs : List LPlan) :
    (pushFrame st inputs).namedNodes = st.namedNodes := by
  unfold pushFrame
  split <;> rfl

theorem pushFrame_graph (st : VState) (inputs : List LPlan) :
    (pushFrame st inputs).graph = st.graph := by
  unfold pushFrame
  split <;> rfl

theorem pushFrame_outputSchemas (st : VState) (inputs : List LPlan) :
    (pushFrame st inputs).outputSchemas = st.outputSchemas := by
  unfold pushFrame
  split <;> rfl

/-! The effect of one `build_extension` call on each bookkeeping quantity. -/

theorem buildNodesAdd {st st' : VState} {ins : List Nat} {e : ExtData}
    (h : buildExtension st ins e = .ok st') (nm : NamedNode) :
    NodesAdd st st' nm (if e.name = some nm then 1 else 0) := by
  obtain ⟨_, _, _, _, hnodes, _⟩ := buildExtension_ok h
  refine ⟨_, hnodes, ?_⟩
  rw [countNamedL_cons]
  simp [countNamedL]

theorem buildEdgesAdd {st st' : VState} {ins : List Nat} {e : ExtData}
    (h : buildExtension st ins e = .ok st') (t : Nat) :
    EdgesAdd st st' t (countNat t ins) := by
  obtain ⟨_, _, schemas, hs, _, hedges, _⟩ := buildExtension_ok h
  refine ⟨_, hedges, ?_⟩
  refine edgesFrom_zipEdges t st.graph.nodes.length ins _ ?_
  rw [List.length_map]
  exact exceptMapM_length hs

theorem buildTravAdd {st st' : VState} {ins : List Nat} {e : ExtData}
    (h : buildExtension st ins e = .ok st') (t : Nat) :
    TravAdd st st' t (if st.graph.nodes.length = t then 1 else 0) := by
  obtain ⟨_, _, _, _, _, _, _, _, htrav⟩ := buildExtension_ok h
  constructor
  · intro h0
    rw [h0] at htrav
    exact htrav
  · intro f fs h0
    rw [h0] at htrav
    exact ⟨[st.graph.nodes.length], htrav, countNat_singleton _ _⟩

theorem buildLookup_some {st st' : VState} {ins : List Nat} {e : ExtData}
    {nm0 : NamedNode} (h : buildExtension st ins e = .ok st')
    (hen : e.name = some nm0) (nm : NamedNode) :
    lookupAssoc st'.namedNodes nm =
      (if nm0 = nm then some st.graph.nodes.length
       else lookupAssoc st.namedNodes nm) := by
  obtain ⟨_, _, _, _, _, _, _, hnamed, _⟩ := buildExtension_ok h
  rw [hen] at hnamed
  rw [hnamed, lookupAssoc_cons]

theorem buildLookup_none {st st' : VState} {ins : List Nat} {e : ExtData}
    (h : buildExtension st ins e = .ok st') (hen : e.name = none)
    (nm : NamedNode) :
    lookupAssoc st'.namedNodes nm = lookupAssoc st.namedNodes nm := by
  obtain ⟨_, _, _, _, _, _, _, hnamed, _⟩ := buildExtension_ok h
  rw [hen] at hnamed
  rw [hnamed]

/-- Graph-side bookkeeping transports along states with equal graphs. -/
theorem NodesAdd_congr_left {s1 s1' s2 : VState} {nm : NamedNode} {k : Nat}
    (h : s1.graph = s1'.graph) (hx : NodesAdd s1 s2 nm k) : NodesAdd s1' s2 nm k := by
  obtain ⟨d, hd, hc⟩ := hx
  exact ⟨d, by rw [← h]; exact hd, hc⟩

theorem EdgesAdd_congr_left {s1 s1' s2 : VState} {t k : Nat}
    (h : s1.graph = s1'.graph) (hx : EdgesAdd s1 s2 t k) : EdgesAdd s1' s2 t k := by
  obtain ⟨d, hd, hc⟩ := hx
  exact ⟨d, by rw [← h]; exact hd, hc⟩

/-- Assembling the counting facts for a built (non-short-circuited)
extension from the facts about its children. -/
theorem countExtAssemble (nm : NamedNode) (e : ExtData) (inputs : List LPlan)
    {st st2 st' : VState} {ins : List Nat}
    (hinv : Inv st) (hi2 : Inv st2) (hs2 : Step (pushFrame st inputs) st2)
    (cIH : CountFacts nm (occCountList nm inputs) (boundOccList nm inputs)
      (freeOccList nm inputs) (pushFrame st inputs) st2)
    (hb : buildExtension { st2 with traversal := st.traversal } ins e = .ok st')
    (hlink : ∀ t, TravAdd (pushFrame st inputs) st2 t (freeOccList nm inputs) →
      countNat t ins = freeOccList nm inputs)
    (hinsBound : ∀ j ∈ ins, j < st2.graph.nodes.length)
    (hl : e.name.bind (lookupAssoc st.namedNodes) = none)
    (hna : noNamedAbove nm (.ext e inputs) = true) :
    CountFacts nm (occCount nm (.ext e inputs)) (boundOcc nm (.ext e inputs))
      (freeOcc nm (.ext e inputs)) st st' := by
  have hPG : (pushFrame st inputs).graph = st.graph := pushFrame_graph st inputs
  have hL2lt : st.graph.nodes.length ≤ st2.graph.nodes.length := by
    obtain ⟨d, hd⟩ := hs2.nodesExt
    have hd2 : st2.graph.nodes = st.graph.nodes ++ d := by
      rw [hd, hPG]
    rw [hd2, List.length_append]
    omega
  have hlkPush : lookupAssoc (pushFrame st inputs).namedNodes nm =
      lookupAssoc st.namedNodes nm := by rw [pushFrame_namedNodes]
  have hbN : NodesAdd st2 st' nm (if e.name = some nm then 1 else 0) :=
    buildNodesAdd hb nm
  have hbE : ∀ t, EdgesAdd st2 st' t (countNat t ins) := fun t => buildEdgesAdd hb t
  have hbTst : ∀ t, TravAdd st st' t
      (if st2.graph.nodes.length = t then 1 else 0) := fun t => buildTravAdd hb t
  have hcntL2 : countNat st2.graph.nodes.length ins = 0 := by
    refine countNat_eq_zero ?_
    intro j hj
    have := hinsBound j hj
    omega
  cases hen : e.name with
  | some nm0 =>
    have hbLs : lookupAssoc st'.namedNodes nm =
        (if nm0 = nm then some st2.graph.nodes.length
         else lookupAssoc st2.namedNodes nm) := buildLookup_some hb hen nm
    have hocc0 : occCountList nm inputs = 0 := by
      simp only [noNamedAbove, hen, Option.isSome_some, if_true,
        decide_eq_true_eq] at hna
      exact hna
    obtain ⟨hbound0, hfree0⟩ := occ0_bound_freeList nm inputs hocc0
    have hlk0 : lookupAssoc st.namedNodes nm0 = none := by
      rw [hen] at hl
      exact hl
    by_cases hq : nm0 = nm
    · have hlk0x : lookupAssoc st.namedNodes nm = none := hq ▸ hlk0
      unfold CountFacts at cIH ⊢
      rw [hlkPush, hlk0x, if_pos hocc0] at cIH
      obtain ⟨hlk2, hnAdd⟩ := cIH
      rw [hlk0x, if_neg (show ¬ occCount nm (.ext e inputs) = 0 by
        simp [occCount, hen, hq])]
      refine ⟨st2.graph.nodes.length, ?_, hL2lt, ?_, ?_, ?_⟩
      · rw [hbLs, if_pos hq]
      · have hx := (NodesAdd_congr_left hPG hnAdd).nodesTrans hbN
        rw [hen] at hx
        simpa [hq] using hx
      · have h1 : EdgesAdd st st2 st2.graph.nodes.length 0 :=
          EdgesAdd_congr_left hPG
            (edgesAdd_of_step_big hs2 hi2 (Nat.le_refl _))
        have hx := h1.edgesTrans (hbE st2.graph.nodes.length)
        rw [hcntL2] at hx
        simpa [boundOcc, hen, hq] using hx
      · have hx := hbTst st2.graph.nodes.length
        rw [if_pos rfl] at hx
        simpa [freeOcc, hen, hq] using hx
    · have hoccP : occCount nm (.ext e inputs) = 0 := by
        simp [occCount, hen, hocc0, hq]
      unfold CountFacts at cIH ⊢
      rw [hlkPush] at cIH
      cases hlknm : lookupAssoc st.namedNodes nm with
      | some i =>
        rw [hlknm] at cIH
        obtain ⟨hlk2, hnAdd, heAdd, htAdd⟩ := cIH
        have hiLt : i < st.graph.nodes.length := by
          obtain ⟨nd, hnd, _⟩ := hinv.namesLookup nm i hlknm
          exact (List.getElem?_eq_some.mp hnd).1
        refine ⟨?_, ?_, ?_, ?_⟩
        · rw [hbLs, if_neg hq]
          exact hlk2
        · have hx := (NodesAdd_congr_left hPG hnAdd).nodesTrans hbN
          rw [hen] at hx
          simpa [hq] using hx
        · have h2 := hbE i
          rw [hlink i htAdd, hfree0] at h2
          have hx := (EdgesAdd_congr_left hPG heAdd).edgesTrans h2
          rw [hbound0] at hx
          simpa [boundOcc, hen, hocc0] using hx
        · have hx := hbTst i
          rw [if_neg (by omega)] at hx
          simpa [freeOcc, hen, hq] using hx
      | none =>
        rw [hlknm, if_pos hocc0] at cIH
        obtain ⟨hlk2, hnAdd⟩ := cIH
        rw [if_pos hoccP]
        refine ⟨?_, ?_⟩
        · rw [hbLs, if_neg hq]
          exact hlk2
        · have hx := (NodesAdd_congr_left hPG hnAdd).nodesTrans hbN
          rw [hen] at hx
          simpa [hq] using hx
  | none =>
    have hbLn : lookupAssoc st'.namedNodes nm =
        lookupAssoc st2.namedNodes nm := buildLookup_none hb hen nm
    have hnaL : noNamedAboveList nm inputs = true := by
      simpa [noNamedAbove, hen] using hna
    have hid := bound_free_occList nm inputs hnaL
    unfold CountFacts at cIH ⊢
    rw [hlkPush] at cIH
    cases hlknm : lookupAssoc st.namedNodes nm with
    | some i =>
      rw [hlknm] at cIH
      obtain ⟨hlk2, hnAdd, heAdd, htAdd⟩ := cIH
      have hiLt : i < st.graph.nodes.length := by
        obtain ⟨nd, hnd, _⟩ := hinv.namesLookup nm i hlknm
        exact (List.getElem?_eq_some.mp hnd).1
      refine ⟨?_, ?_, ?_, ?_⟩
      · rw [hbLn]
        exact hlk2
      · have hx := (NodesAdd_congr_left hPG hnAdd).nodesTrans hbN
        rw [hen] at hx
        simpa using hx
      · have h2 := hbE i
        rw [hlink i htAdd] at h2
        have hx := (EdgesAdd_congr_left hPG heAdd).edgesTrans h2
        rw [hid] at hx
        simpa [boundOcc, hen] using hx
      · have hx := hbTst i
        rw [if_neg (by omega)] at hx
        simpa [freeOcc, hen] using hx
    | none =>
      rw [hlknm] at cIH
      by_cases hocc : occCountList nm inputs = 0
      · rw [if_pos hocc] at cIH
        obtain ⟨hlk2, hnAdd⟩ := cIH
        rw [if_pos (by simpa [occCount, hen] using hocc)]
        refine ⟨?_, ?_⟩
        · rw [hbLn]
          exact hlk2
        · have hx := (NodesAdd_congr_left hPG hnAdd).nodesTrans hbN
          rw [hen] at hx
          simpa using hx
      · rw [if_neg hocc] at cIH
        obtain ⟨b, hlk2, hble, hnAdd, heAdd, htAdd⟩ := cIH
        have hbLt : b < st2.graph.nodes.length := by
          obtain ⟨nd, hnd, _⟩ := hi2.namesLookup nm b hlk2
          exact (List.getElem?_eq_some.mp hnd).1
        rw [if_neg (show ¬ occCount nm (.ext e inputs) = 0 by
          simpa [occCount, hen] using hocc)]
        refine ⟨b, ?_, ?_, ?_, ?_, ?_⟩
        · rw [hbLn]
          exact hlk2
        · have hpl : (pushFrame st inputs).graph.nodes.length =
              st.graph.nodes.length := by rw [hPG]
          omega
        · have hx := (NodesAdd_congr_left hPG hnAdd).nodesTrans hbN
          rw [hen] at hx
          simpa using hx
        · have h2 := hbE b
          rw [hlink b htAdd] at h2
          have hx := (EdgesAdd_congr_left hPG heAdd).edgesTrans h2
          rw [hid] at hx
          simpa [boundOcc, hen] using hx
        · have hx := hbTst b
          rw [if_neg (by omega)] at hx
          simpa [freeOcc, hen] using hx

theorem addIndex_graph (st : VState) (i : Nat) :
    (addIndexToTraversal st i).graph = st.graph := by
  unfold addIndexToTraversal
  split <;> rfl

theorem addIndex_namedNodes (st : VState) (i : Nat) :
    (addIndexToTraversal st i).namedNodes = st.namedNodes := by
  unfold addIndexToTraversal
  split <;> rfl

theorem addIndex_travAdd (st : VState) (i t : Nat) :
    TravAdd st (addIndexToTraversal st i) t (if i = t then 1 else 0) := by
  constructor
  · intro h
    simp [addIndexToTraversal, h]
  · intro f fs h
    refine ⟨[i], by simp [addIndexToTraversal, h], countNat_singleton t i⟩

mutual

/-- The per-plan counting facts for a fixed stable name over one successful
visit, under the no-named-ancestor side condition. -/
theorem countPlan (nm : NamedNode) : ∀ (p : LPlan) (st st' : VState),
    visitPlan st p = .ok st' → Inv st → noNamedAbove nm p = true →
    CountFacts nm (occCount nm p) (boundOcc nm p) (freeOcc nm p) st st'
  | .other inputs, st, st', h, hinv, hna => by
    rw [visitPlan_other] at h
    cases hv : visitList st inputs with
    | error er => rw [hv] at h; cases h
    | ok st2 =>
      rw [hv] at h
      cases h
      exact countList nm inputs st _ hv hinv
        (by simpa [noNamedAbove] using hna)
  | .ext e inputs, st, st', h, hinv, hna => by
    cases hcf : e.convertFails with
    | true => rw [visitPlan_ext_convertFails hcf] at h; cases h
    | false =>
      cases hl : e.name.bind (lookupAssoc st.namedNodes) with
      | some i =>
        rw [visitPlan_ext_skip hcf hl] at h
        cases h
        obtain ⟨nm0, hen, hlk0⟩ : ∃ nm0, e.name = some nm0 ∧
            lookupAssoc st.namedNodes nm0 = some i := by
          cases hen : e.name with
          | none => rw [hen] at hl; cases hl
          | some nm0 => rw [hen] at hl; exact ⟨nm0, rfl, hl⟩
        have hocc0 : occCountList nm inputs = 0 := by
          simp only [noNamedAbove, hen, Option.isSome_some, if_true,
            decide_eq_true_eq] at hna
          exact hna
        by_cases hq : nm0 = nm
        · have hlknm : lookupAssoc st.namedNodes nm = some i := hq ▸ hlk0
          unfold CountFacts
          rw [hlknm]
          refine ⟨?_, ?_, ?_, ?_⟩
          · rw [addIndex_namedNodes]
            exact hlknm
          · exact ⟨[], by rw [addIndex_graph]; simp, rfl⟩
          · refine ⟨[], by rw [addIndex_graph]; simp, ?_⟩
            simp [edgesFrom, boundOcc, hen, hq]
          · have hx := addIndex_travAdd st i i
            rw [if_pos rfl] at hx
            simpa [freeOcc, hen, hq] using hx
        · cases hlknm : lookupAssoc st.namedNodes nm with
          | some j =>
            unfold CountFacts
            rw [hlknm]
            have hij : i ≠ j := by
              intro hc
              obtain ⟨nd, hnd, hname⟩ := hinv.namesLookup nm0 i hlk0
              obtain ⟨nd2, hnd2, hname2⟩ := hinv.namesLookup nm j hlknm
              subst hc
              rw [hnd] at hnd2
              cases hnd2
              rw [hname] at hname2
              cases hname2
              exact hq rfl
            refine ⟨?_, ?_, ?_, ?_⟩
            · rw [addIndex_namedNodes]
              exact hlknm
            · exact ⟨[], by rw [addIndex_graph]; simp, rfl⟩
            · refine ⟨[], by rw [addIndex_graph]; simp, ?_⟩
              simp [edgesFrom, boundOcc, hen, hq, hocc0]
            · have hx := addIndex_travAdd st i j
              rw [if_neg hij] at hx
              simpa [freeOcc, hen, hq] using hx
          | none =>
            unfold CountFacts
            rw [hlknm, if_pos (show occCount nm (.ext e inputs) = 0 by
              simp [occCount, hen, hocc0, hq])]
            refine ⟨?_, ?_⟩
            · rw [addIndex_namedNodes]
              exact hlknm
            · exact ⟨[], by rw [addIndex_graph]; simp, rfl⟩
      | none =>
        rw [visitPlan_ext_continue hcf hl] at h
        cases hv : visitList (pushFrame st inputs) inputs with
        | error er => rw [hv] at h; cases h
        | ok st2 =>
          rw [hv] at h
          change postVisit st2 (LPlan.ext e inputs) = Except.ok st' at h
          obtain ⟨hi2, hs2⟩ :=
            shapeList inputs (pushFrame st inputs) st2 hv (pushFrame_inv hinv inputs)
          have hnaL : noNamedAboveList nm inputs = true := by
            cases hen2 : e.name with
            | some nm0 =>
              refine occ0_noNamedAboveList nm inputs ?_
              simp only [noNamedAbove, hen2, Option.isSome_some, if_true,
                decide_eq_true_eq] at hna
              exact hna
            | none => simpa [noNamedAbove, hen2] using hna
          have cIH := countList nm inputs (pushFrame st inputs) st2 hv
            (pushFrame_inv hinv inputs) hnaL
          cases hie : inputs.isEmpty with
          | true =>
            have hnil : inputs = [] := List.isEmpty_iff.mp hie
            subst hnil
            simp only [visitList] at hv
            cases hv
            rw [postVisit_ext_nilInputs hcf] at h
            cases hbx : buildExtension (pushFrame st []) [] e with
            | error er => rw [hbx] at h; cases h
            | ok st3 =>
              rw [hbx] at h
              cases h
              have hb : buildExtension
                  { pushFrame st [] with traversal := st.traversal } [] e =
                    .ok st' := hbx
              exact countExtAssemble nm e [] hinv hi2 hs2 cIH hb
                (fun t _ => rfl) (fun j hj => absurd hj (List.not_mem_nil j)) hl hna
          | false =>
            have hp : pushFrame st inputs =
                { st with traversal := [] :: st.traversal } := by
              simp [pushFrame, hie]
            have hs2x : Step { st with traversal := [] :: st.traversal } st2 := by
              rw [hp] at hs2
              exact hs2
            obtain ⟨add, hadd0⟩ := hs2x.travCons [] st.traversal rfl
            have hadd : st2.traversal = add :: st.traversal := by
              simpa using hadd0
            rw [postVisit_ext_consInputs hcf hie hadd] at h
            cases hbx : buildExtension { st2 with traversal := st.traversal } add e with
            | error er => rw [hbx] at h; cases h
            | ok st3 =>
              rw [hbx] at h
              cases h
              refine countExtAssemble nm e inputs hinv hi2 hs2 cIH hbx ?_ ?_ hl hna
              · intro t ht
                have htrP : (pushFrame st inputs).traversal = [] :: st.traversal := by
                  rw [hp]
                obtain ⟨a, ha, hc⟩ := ht.2 [] st.traversal htrP
                simp only [List.nil_append] at ha
                have : add = a := by
                  rw [hadd] at ha
                  exact (List.cons.injEq _ _ _ _).mp ha |>.1
                rw [this]
                exact hc
              · intro j hj
                exact hi2.travWF add
                  (by rw [hadd]; exact List.mem_cons_self _ _) j hj

theorem countList (nm : NamedNode) : ∀ (ps : List LPlan) (st st' : VState),
    visitList st ps = .ok st' → Inv st → noNamedAboveList nm ps = true →
    CountFacts nm (occCountList nm ps) (boundOccList nm ps)
      (freeOccList nm ps) st st'
  | [], st, st', h, hinv, _ => by
    simp only [visitList] at h
    cases h
    unfold CountFacts
    cases hlk : lookupAssoc st.namedNodes nm with
    | some i =>
      exact ⟨rfl, ⟨[], by simp, rfl⟩, ⟨[], by simp, rfl⟩, travAdd_refl st i⟩
    | none =>
      exact ⟨rfl, ⟨[], by simp, rfl⟩⟩
  | p :: rest, st, st', h, hinv, hna => by
    simp only [visitList] at h
    cases hv : visitPlan st p with
    | error er => rw [hv] at h; cases h
    | ok st1 =>
      rw [hv] at h
      simp only [noNamedAboveList, Bool.and_eq_true] at hna
      obtain ⟨hi1, hs1⟩ := shapePlan p st st1 hv hinv
      have c1 := countPlan nm p st st1 hv hinv hna.1
      have c2 := countList nm rest st1 st' h hi1 hna.2
      have hcomp := c1.comp c2 hs1 hi1 (fun h0 => occ0_bound_free nm p h0)
      simpa [occCountList, boundOccList, freeOccList] using hcomp

end

/-! Concrete plans for the dedup claim. -/

def dedupSchema : ArroyoSchemaM := ⟨⟨[⟨"_timestamp", .prim .tsNanosecond, false⟩]⟩, 0, none⟩

def dedupSrc : ExtData := ⟨some (.source "t"), dedupSchema, .forward, 1, false, false⟩

def dedupSink : ExtData := ⟨none, dedupSchema, .shuffle [0], 3, false, false⟩

/-- A plan consisting of a single named source extension at the root. -/
def dedupCxPlan : LPlan := .ext dedupSrc []

/-- The state `add_plan` produces on `dedupCxPlan` (checked by `rfl`). -/
def dedupCxState : VState :=
  ⟨⟨[⟨some (.source "t"), dedupSchema, 1⟩], []⟩, [(0, dedupSchema)],
    [(.source "t", 0)], []⟩

/-- A sink whose two inputs both reference the source named `t`. -/
def dedupPlan : LPlan := .ext dedupSink [.ext dedupSrc [], .ext dedupSrc []]

/-- The state `add_plan` produces on `dedupPlan` (checked by `rfl`). -/
def dedupState : VState :=
  ⟨⟨[⟨some (.source "t"), dedupSchema, 1⟩, ⟨none, dedupSchema, 3⟩],
    [⟨0, 1, ⟨.shuffle [0], dedupSchema⟩⟩, ⟨0, 1, ⟨.shuffle [0], dedupSchema⟩⟩]⟩,
    [(1, dedupSchema), (0, dedupSchema)],
    [(.source "t", 0)], []⟩

/-- C1 counterexample: a plan consisting of one extension with stable name
`Source("t")` (N = 1).  The visit succeeds, the graph has exactly one node
for the name, but its fan-out is 0, not N = 1: an occurrence that is not
below any extension with inputs produces no out-edge. -/
theorem c1_counterexample :
    addPlan initVState dedupCxPlan = .ok dedupCxState ∧
    occCount (.source "t") dedupCxPlan = 1 ∧
    countNamed (.source "t") dedupCxState.graph = 1 ∧
    lookupAssoc dedupCxState.namedNodes (.source "t") = some 0 ∧
    outDegree dedupCxState.graph 0 = 0 :=
  ⟨rfl, rfl, rfl, rfl, rfl⟩

/-- C1 (amended): for every plan visited successfully from the initial
state, and every stable name `nm` such that no occurrence of `nm` sits below
another named extension (`noNamedAbove`) and every occurrence sits below an
extension with inputs (`freeOcc = 0`), with at least one occurrence: the
emitted graph contains exactly one node for `nm`, and its fan-out equals the
number N of extensions carrying `nm` (the pre-visit short-circuit reuses the
existing node for every occurrence after the first). -/
theorem c1_name_dedup (p : LPlan) (nm : NamedNode) (st' : VState)
    (h : addPlan initVState p = .ok st')
    (hna : noNamedAbove nm p = true)
    (hguard : freeOcc nm p = 0)
    (hocc : 1 ≤ occCount nm p) :
    ∃ b, lookupAssoc st'.namedNodes nm = some b ∧
      countNamed nm st'.graph = 1 ∧
      outDegree st'.graph b = occCount nm p := by
  have h2 : visitPlan initVState p = .ok st' := h
  have hc := countPlan nm p initVState st' h2 initInv hna
  unfold CountFacts at hc
  rw [show lookupAssoc initVState.namedNodes nm = none from rfl] at hc
  rw [if_neg (by omega)] at hc
  obtain ⟨b, hlk, _, ⟨Δn, hΔn, hcn⟩, ⟨Δe, hΔe, hce⟩, _⟩ := hc
  refine ⟨b, hlk, ?_, ?_⟩
  · show countNamedL nm st'.graph.nodes = 1
    rw [hΔn]
    simpa [initVState] using hcn
  · show edgesFrom b st'.graph.edges = occCount nm p
    rw [hΔe]
    have hbf := bound_free_occ nm p hna
    have : edgesFrom b (initVState.graph.edges ++ Δe) = edgesFrom b Δe := by
      simp [initVState, edgesFrom]
    rw [this, hce]
    omega

set_option maxHeartbeats 2000000 in
/-- Witness for C1 (amended): the source named `t` referenced from two
branches is materialized once with fan-out 2. -/
theorem c1_witness :
    ∃ b, lookupAssoc dedupState.namedNodes (.source "t") = some b ∧
      countNamed (.source "t") dedupState.graph = 1 ∧
      outDegree dedupState.graph b = occCount (.source "t") dedupPlan :=
  c1_name_dedup dedupPlan (.source "t") dedupState (by rfl) (by rfl) (by rfl)
    (by decide)

/-! Edge-order preservation.  `Mat st p st2 i` says that visiting `p` from
`st` succeeds with final state `st2`, materializing the root extension as
graph node `i`; `MatList st ps st2 idxs` additionally lists, in order, the
node index materialized for each input.  The `build` constructor spells out
the graph change of `build_extension`
(src/crates/arroyo-df/src/builder.rs, lines 272-286): the fresh node's
incoming edges are appended in one batch, zipping the input node indices
with their schemas, so the j-th incoming edge of the new node runs from
`idxs[j]` — the node materialized for the j-th logical input — to the new
node. -/

mutual

inductive Mat : VState → LPlan → VState → Nat → Prop where
  | reuse (st : VState) (e : ExtData) (inputs : List LPlan) (i : Nat)
      (hc : e.convertFails = false)
      (hlk : e.name.bind (lookupAssoc st.namedNodes) = some i) :
      Mat st (.ext e inputs) (addIndexToTraversal st i) i
  | build (st : VState) (e : ExtData) (inputs : List LPlan)
      (stMid stPop st2 : VState) (idxs : List Nat)
      (schemas : List ArroyoSchemaM)
      (hc : e.convertFails = false)
      (hlk : e.name.bind (lookupAssoc st.namedNodes) = none)
      (hins : MatList (pushFrame st inputs) inputs stMid idxs)
      (hpop : stPop = (if inputs.isEmpty then stMid
        else { stMid with traversal := stMid.traversal.tail }))
      (hsch : exceptMapM (schemaLookup stPop) idxs = .ok schemas)
      (hpf : e.planFails = false)
      (hnodes : st2.graph.nodes =
        stPop.graph.nodes ++ [⟨e.name, e.outSchema, e.payload⟩])
      (hedges : st2.graph.edges = stPop.graph.edges ++
        (idxs.zip (schemas.map (fun s => EdgeM.mk e.edgeKind s))).map
          (fun pr : Nat × EdgeM =>
            GraphEdge.mk pr.1 stPop.graph.nodes.length pr.2)) :
      Mat st (.ext e inputs) st2 stPop.graph.nodes.length

inductive MatList : VState → List LPlan → VState → List Nat → Prop where
  | nil (st : VState) : MatList st [] st []
  | cons (st st1 st2 : VState) (p : LPlan) (rest : List LPlan) (i : Nat)
      (idxs : List Nat) (h1 : Mat st p st1 i)
      (h2 : MatList st1 rest st2 idxs) :
      MatList st (p :: rest) st2 (i :: idxs)

end

/-- The effect of a visit on the traversal stack: the materialized indices
are appended to the innermost frame, if any. -/
def frameAfter (tr : List (List Nat)) (g : List Nat) : List (List Nat) :=
  match tr with
  | [] => []
  | f :: fs => (f ++ g) :: fs

theorem addIndex_frame (st : VState) (i : Nat) :
    (addIndexToTraversal st i).traversal = frameAfter st.traversal [i] := by
  cases h : st.traversal <;> simp [addIndexToTraversal, frameAfter, h]

theorem frameAfter_snoc (tr : List (List Nat)) (i : Nat) (idxs : List Nat) :
    frameAfter (frameAfter tr [i]) idxs = frameAfter tr (i :: idxs) := by
  cases tr <;> simp [frameAfter]

mutual

theorem matPlan : ∀ (p : LPlan) (st st2 : VState),
    allExt p = true → visitPlan st p = .ok st2 →
    ∃ i, Mat st p st2 i ∧ st2.traversal = frameAfter st.traversal [i]
  | .other _, _, _, hall, _ => by
    simp [allExt] at hall
  | .ext e inputs, st, st2, hall, h => by
    have hallL : allExtList inputs = true := hall
    cases hcf : e.convertFails with
    | true => rw [visitPlan_ext_convertFails hcf] at h; cases h
    | false =>
      cases hl : e.name.bind (lookupAssoc st.namedNodes) with
      | some i =>
        rw [visitPlan_ext_skip hcf hl] at h
        cases h
        exact ⟨i, Mat.reuse st e inputs i hcf hl, addIndex_frame st i⟩
      | none =>
        rw [visitPlan_ext_continue hcf hl] at h
        cases hv : visitList (pushFrame st inputs) inputs with
        | error er => rw [hv] at h; cases h
        | ok stM =>
          rw [hv] at h
          change postVisit stM (LPlan.ext e inputs) = Except.ok st2 at h
          obtain ⟨idxs, hml, hframe⟩ :=
            matList inputs (pushFrame st inputs) stM hallL hv
          cases hie : inputs.isEmpty with
          | true =>
            have hnil : inputs = [] := List.isEmpty_iff.mp hie
            subst hnil
            simp only [visitList] at hv
            cases hv
            rw [postVisit_ext_nilInputs hcf] at h
            cases hb : buildExtension (pushFrame st []) [] e with
            | error er => rw [hb] at h; cases h
            | ok st3 =>
              rw [hb] at h
              cases h
              obtain ⟨hnp, hpf, schemas, hsch, hnodes, hedges, _, _, htrav⟩ :=
                buildExtension_ok hb
              exact ⟨_, Mat.build st e [] (pushFrame st []) (pushFrame st [])
                st2 [] schemas hcf hl (MatList.nil _) (by rfl) hsch hpf
                hnodes hedges, htrav⟩
          | false =>
            have hp : pushFrame st inputs =
                { st with traversal := [] :: st.traversal } := by
              simp [pushFrame, hie]
            rw [hp] at hframe
            have hframe2 : stM.traversal = idxs :: st.traversal := by
              simpa [frameAfter] using hframe
            rw [postVisit_ext_consInputs hcf hie hframe2] at h
            cases hb : buildExtension { stM with traversal := st.traversal }
                idxs e with
            | error er => rw [hb] at h; cases h
            | ok st3 =>
              rw [hb] at h
              cases h
              obtain ⟨hnp, hpf, schemas, hsch, hnodes, hedges, _, _, htrav⟩ :=
                buildExtension_ok hb
              refine ⟨_, Mat.build st e inputs stM
                { stM with traversal := st.traversal } st2 idxs schemas hcf hl
                hml ?_ hsch hpf hnodes hedges, htrav⟩
              rw [hie]
              simp only [Bool.false_eq_true, if_false]
              rw [hframe2]
              rfl

theorem matList : ∀ (ps : List LPlan) (st st2 : VState),
    allExtList ps = true → visitList st ps = .ok st2 →
    ∃ idxs, MatList st ps st2 idxs ∧
      st2.traversal = frameAfter st.traversal idxs
  | [], st, st2, _, h => by
    simp only [visitList] at h
    cases h
    exact ⟨[], MatList.nil st, by cases htr : st.traversal <;>
      simp [frameAfter, htr]⟩
  | p :: rest, st, st2, hall, h => by
    have hsplit : allExt p = true ∧ allExtList rest = true := by
      simpa [allExtList, Bool.and_eq_true] using hall
    obtain ⟨hall1, hall2⟩ := hsplit
    simp only [visitList] at h
    cases hv : visitPlan st p with
    | error er => rw [hv] at h; cases h
    | ok st1 =>
      rw [hv] at h
      obtain ⟨i, hm, hf1⟩ := matPlan p st st1 hall1 hv
      obtain ⟨idxs, hms, hf2⟩ := matList rest st1 st2 hall2 h
      refine ⟨i :: idxs, MatList.cons st st1 st2 p rest i idxs hm hms, ?_⟩
      rw [hf2, hf1, frameAfter_snoc]

end

/-- C5: for every plan made of streaming extensions that the visitor
accepts, the run is described by the `Mat` relation: every freshly built
node's incoming edges are appended in one batch zipping the input node
indices (the frame the children pushed, in input order) with their schemas,
so edge j of a node targets it from the node materialized for logical
input j; a name-deduplicated occurrence contributes its existing index to
the enclosing frame at the same position. -/
theorem c5_edge_order_preservation (p : LPlan) (st2 : VState)
    (hall : allExt p = true) (h : addPlan initVState p = .ok st2) :
    ∃ i, Mat initVState p st2 i ∧
      st2.traversal = frameAfter initVState.traversal [i] := by
  have h2 : visitPlan initVState p = .ok st2 := h
  exact matPlan p initVState st2 hall h2

def c5Src1 : ExtData := ⟨none, dedupSchema, .forward, 11, false, false⟩

def c5Src2 : ExtData := ⟨none, dedupSchema, .forward, 12, false, false⟩

def c5Sink : ExtData := ⟨none, dedupSchema, .forward, 13, false, false⟩

/-- A sink over two distinct unnamed sources. -/
def c5Plan : LPlan := .ext c5Sink [.ext c5Src1 [], .ext c5Src2 []]

/-- The state `add_plan` produces on `c5Plan` (checked by `rfl`): edge 0
runs from node 0 (input 0), edge 1 from node 1 (input 1). -/
def c5State : VState :=
  ⟨⟨[⟨none, dedupSchema, 11⟩, ⟨none, dedupSchema, 12⟩, ⟨none, dedupSchema, 13⟩],
    [⟨0, 2, ⟨.forward, dedupSchema⟩⟩, ⟨1, 2, ⟨.forward, dedupSchema⟩⟩]⟩,
    [(2, dedupSchema), (1, dedupSchema), (0, dedupSchema)], [], []⟩

/-- Witness for C5: the two-input sink plan is materialized with its edges
in input order. -/
theorem c5_witness :
    ∃ i, Mat initVState c5Plan c5State i ∧
      c5State.traversal = frameAfter initVState.traversal [i] :=
  c5_edge_order_preservation c5Plan c5State (by rfl) (by rfl)

end ArroyoVerify
